import Mathlib

/-!
Verification of the thinking-block fixer module
(`src-tauri/src/commands/thinking_fix.rs`) of the cc-switch repository.

The module has two independent operations:
* `get_claude_projects`: lists subdirectories of a fixed root, sorted by
  modification time descending;
* `fix_thinking_blocks`: finds the most recently modified `.jsonl` file in a
  project directory, removes `"thinking"` / `"redacted_thinking"` elements
  from each line's `message.content` array, writes a backup, and overwrites
  the file.

JSON values are modelled by the inductive `JVal`, with the canonical
serializer and the parser modelling `serde_json::to_string` /
`serde_json::from_str`.  Modelling decisions: JSON numbers are modelled as
integers (floating-point literals are out of scope), objects are modelled as
insertion-ordered association lists (the `IndexMap` representation of
`serde_json::Value`, with `insert` replacing the value of an existing key in
place), and `\uXXXX` string escapes are restricted to non-surrogate scalar
values.  The parser is fuelled, mirroring the bounded recursion depth of
`serde_json`.  Filesystem effects are modelled by an association list from
paths to file contents, with explicit success flags for the fallible copy
and write system calls.
-/

namespace ThinkingFix

/-- JSON values, modelling `serde_json::Value` with integer numbers and
insertion-ordered objects. -/
inductive JVal where
  | null
  | bool (b : Bool)
  | num (n : Int)
  | str (s : String)
  | arr (elems : List JVal)
  | obj (members : List (String × JVal))

/-- Lookup of a key in an object's member list, modelling `Map::get`. -/
def lookupKey : List (String × JVal) → String → Option JVal
  | [], _ => none
  | (k', v) :: ms, k => if k' = k then some v else lookupKey ms k

/-- Replace the value stored at a key, keeping its position, modelling the
in-place mutation performed through `get_mut`. -/
def setKey : List (String × JVal) → String → JVal → List (String × JVal)
  | [], _, _ => []
  | (k', v') :: ms, k, v => if k' = k then (k', v) :: ms else (k', v') :: setKey ms k v

/-- Insert a key/value pair: replace in place when the key is present,
append otherwise (`IndexMap::insert` semantics, used when building an
object during parsing). -/
def insertKV : List (String × JVal) → String → JVal → List (String × JVal)
  | [], k, v => [(k, v)]
  | (k', v') :: ms, k, v => if k' = k then (k', v) :: ms else (k', v') :: insertKV ms k v

/-- Field access on a JSON value, modelling `Value::get(key)`: a lookup on
objects, `None` on every other variant. -/
def jGet (v : JVal) (k : String) : Option JVal :=
  match v with
  | .obj ms => lookupKey ms k
  | _ => none

/-- Field update on a JSON value at an existing key, modelling assignment
through `Value::get_mut(key)`. -/
def jSet (v : JVal) (k : String) (x : JVal) : JVal :=
  match v with
  | .obj ms => .obj (setKey ms k x)
  | w => w

/-- The `retain` predicate of `fix_thinking_blocks`: keep an element unless
its `type` field is the string `"thinking"` or `"redacted_thinking"`. -/
def keepItem (item : JVal) : Bool :=
  match jGet item "type" with
  | some (.str t) => !(t == "thinking" || t == "redacted_thinking")
  | _ => true

/-- The per-value transform of `fix_thinking_blocks` (lines 158-177 of
`thinking_fix.rs`): if `value.message.content` is an array, filter out the
thinking blocks and report how many elements were removed; otherwise leave
the value untouched and report zero. -/
def fixValue (v : JVal) : JVal × Nat :=
  match jGet v "message" with
  | some msg =>
    match jGet msg "content" with
    | some (.arr items) =>
      let kept := items.filter keepItem
      (jSet v "message" (jSet msg "content" (.arr kept)), items.length - kept.length)
    | _ => (v, 0)
  | none => (v, 0)

/-- Whether a value possesses the `message.content` array path that
`fix_thinking_blocks` operates on. -/
def hasContentArray (v : JVal) : Bool :=
  match jGet v "message" with
  | some msg =>
    match jGet msg "content" with
    | some (.arr _) => true
    | _ => false
  | none => false

/-- Pairwise distinctness of a list of keys. -/
def keysNodup : List String → Bool
  | [] => true
  | k :: ks => !ks.contains k && keysNodup ks

mutual

/-- Well-formedness of a value: every object has pairwise distinct keys.
Parsed values always satisfy this. -/
def jwf : JVal → Bool
  | .null => true
  | .bool _ => true
  | .num _ => true
  | .str _ => true
  | .arr es => jwfElems es
  | .obj ms => keysNodup (ms.map Prod.fst) && jwfMembers ms

/-- Well-formedness of a list of array elements. -/
def jwfElems : List JVal → Bool
  | [] => true
  | e :: es => jwf e && jwfElems es

/-- Well-formedness of the values of an object's member list. -/
def jwfMembers : List (String × JVal) → Bool
  | [] => true
  | (_, v) :: ms => jwf v && jwfMembers ms

end

/-- The `\x7b` character (opening brace). -/
def lbraceChar : Char := Char.ofNat 123

/-- The `\x7d` character (closing brace). -/
def rbraceChar : Char := Char.ofNat 125

/-- Decimal digit character for a value below ten. -/
def digitChar (d : Nat) : Char := Char.ofNat (48 + d)

/-- Lowercase hexadecimal digit character for a value below sixteen. -/
def hexChar (d : Nat) : Char := Char.ofNat (if d < 10 then 48 + d else 87 + d)

/-- Decimal digit characters of a natural number, most significant first;
the fuel bounds the number of digits and `natChars` always supplies
enough. -/
def natCharsAux : Nat → Nat → List Char
  | 0, _ => []
  | fuel + 1, n =>
    if n < 10 then [digitChar n]
    else natCharsAux fuel (n / 10) ++ [digitChar (n % 10)]

/-- Decimal digit characters of a natural number, most significant
first. -/
def natChars (n : Nat) : List Char :=
  natCharsAux (n + 1) n

/-- Decimal representation of an integer, as printed by `serde_json`. -/
def intChars : Int → List Char
  | .ofNat n => natChars n
  | .negSucc m => '-' :: natChars (m + 1)

/-- Escape of one character inside a JSON string, as produced by
`serde_json`'s serializer: `"` and `\` are backslash-escaped, the named
control characters use their short escapes, the remaining control
characters use a `\u00XX` escape, and everything else is emitted raw. -/
def escChar (c : Char) : List Char :=
  if c = '"' then ['\\', '"']
  else if c = '\\' then ['\\', '\\']
  else if c = Char.ofNat 8 then ['\\', 'b']
  else if c = Char.ofNat 12 then ['\\', 'f']
  else if c = '\n' then ['\\', 'n']
  else if c = '\r' then ['\\', 'r']
  else if c = '\t' then ['\\', 't']
  else if c.toNat < 32 then
    ['\\', 'u', '0', '0', hexChar (c.toNat / 16), hexChar (c.toNat % 16)]
  else [c]

/-- Serialized form of a JSON string literal, quotes included. -/
def strChars (s : String) : List Char :=
  '"' :: s.data.flatMap escChar ++ ['"']

mutual

/-- Characters of the canonical (compact) serialization of a value,
modelling `serde_json::to_string`. -/
def serChars : JVal → List Char
  | .null => 'n' :: 'u' :: 'l' :: 'l' :: []
  | .bool true => 't' :: 'r' :: 'u' :: 'e' :: []
  | .bool false => 'f' :: 'a' :: 'l' :: 's' :: 'e' :: []
  | .num i => intChars i
  | .str s => strChars s
  | .arr es => '[' :: serElems es ++ [']']
  | .obj ms => lbraceChar :: serMembers ms ++ [rbraceChar]

/-- Comma-separated serialization of array elements. -/
def serElems : List JVal → List Char
  | [] => []
  | [e] => serChars e
  | e :: e' :: es => serChars e ++ ',' :: serElems (e' :: es)

/-- Comma-separated serialization of object members. -/
def serMembers : List (String × JVal) → List Char
  | [] => []
  | [(k, v)] => strChars k ++ ':' :: serChars v
  | (k, v) :: m :: ms => strChars k ++ ':' :: serChars v ++ ',' :: serMembers (m :: ms)

end

/-- Canonical serialization of a value, modelling `serde_json::to_string`. -/
def serialize (v : JVal) : String :=
  String.mk (serChars v)

/-- JSON whitespace characters (space, tab, line feed, carriage return). -/
def isWsChar (c : Char) : Bool :=
  c = ' ' || c = '\t' || c = '\n' || c = '\r'

/-- Skip leading JSON whitespace. -/
def skipWs : List Char → List Char
  | [] => []
  | c :: cs => if isWsChar c then skipWs cs else c :: cs

/-- Value of a decimal digit character. -/
def digitVal (c : Char) : Option Nat :=
  if 48 ≤ c.toNat ∧ c.toNat ≤ 57 then some (c.toNat - 48) else none

/-- Value of a hexadecimal digit character. -/
def hexVal (c : Char) : Option Nat :=
  if 48 ≤ c.toNat ∧ c.toNat ≤ 57 then some (c.toNat - 48)
  else if 97 ≤ c.toNat ∧ c.toNat ≤ 102 then some (c.toNat - 87)
  else if 65 ≤ c.toNat ∧ c.toNat ≤ 70 then some (c.toNat - 55)
  else none

/-- Consume a maximal run of decimal digits, accumulating their value. -/
def parseDigitsAux (acc : Nat) : List Char → Nat × List Char
  | [] => (acc, [])
  | c :: cs =>
    match digitVal c with
    | some d => parseDigitsAux (acc * 10 + d) cs
    | none => (acc, c :: cs)

/-- Parse a natural-number token (at least one digit). -/
def parseNatTok : List Char → Option (Nat × List Char)
  | [] => none
  | c :: cs => if (digitVal c).isSome then some (parseDigitsAux 0 (c :: cs)) else none

/-- Parse an integer token: an optional minus sign followed by digits. -/
def parseNum : List Char → Option (Int × List Char)
  | [] => none
  | c :: cs =>
    if c = '-' then (parseNatTok cs).map (fun p => (-(p.1 : Int), p.2))
    else (parseNatTok (c :: cs)).map (fun p => ((p.1 : Int), p.2))

mutual

/-- Parse the part of a JSON string-literal body that follows a
backslash.  Escapes follow the JSON grammar; `\uXXXX` is restricted to
non-surrogate scalar values. -/
def parseEsc : Nat → List Char → Option (List Char × List Char)
  | 0, _ => none
  | _ + 1, [] => none
  | fuel + 1, e :: cs' =>
    if e = '"' then (parseStrBody fuel cs').map (fun p => ('"' :: p.1, p.2))
    else if e = '\\' then (parseStrBody fuel cs').map (fun p => ('\\' :: p.1, p.2))
    else if e = '/' then (parseStrBody fuel cs').map (fun p => ('/' :: p.1, p.2))
    else if e = 'b' then (parseStrBody fuel cs').map (fun p => (Char.ofNat 8 :: p.1, p.2))
    else if e = 'f' then (parseStrBody fuel cs').map (fun p => (Char.ofNat 12 :: p.1, p.2))
    else if e = 'n' then (parseStrBody fuel cs').map (fun p => ('\n' :: p.1, p.2))
    else if e = 'r' then (parseStrBody fuel cs').map (fun p => ('\r' :: p.1, p.2))
    else if e = 't' then (parseStrBody fuel cs').map (fun p => ('\t' :: p.1, p.2))
    else if e = 'u' then
      match cs' with
      | a :: b :: c2 :: d :: cs'' =>
        match hexVal a, hexVal b, hexVal c2, hexVal d with
        | some ha, some hb, some hc, some hd =>
          let n := ((ha * 16 + hb) * 16 + hc) * 16 + hd
          if n < 55296 ∨ (57344 ≤ n ∧ n < 1114112) then
            (parseStrBody fuel cs'').map (fun p => (Char.ofNat n :: p.1, p.2))
          else none
        | _, _, _, _ => none
      | _ => none
    else none

/-- Parse the body of a JSON string literal: raw characters, a closing
quote, or a backslash escape. -/
def parseStrBody : Nat → List Char → Option (List Char × List Char)
  | 0, _ => none
  | _ + 1, [] => none
  | fuel + 1, c :: cs =>
    if c = '"' then some ([], cs)
    else if c = '\\' then parseEsc fuel cs
    else if c.toNat < 32 then none
    else (parseStrBody fuel cs).map (fun p => (c :: p.1, p.2))

end

/-- Build an object from a parsed member list, inserting each member in
order (`IndexMap::insert` semantics: a duplicate key replaces the earlier
value in place). -/
def buildObj (ms : List (String × JVal)) : List (String × JVal) :=
  ms.foldl (fun acc kv => insertKV acc kv.1 kv.2) []

mutual

/-- Parse one JSON value from the input, modelling `serde_json::from_str`'s
recursive-descent parser.  The fuel bounds the recursion depth through
arrays and objects, mirroring `serde_json`'s bounded recursion. -/
def parseV : Nat → List Char → Option (JVal × List Char)
  | 0, _ => none
  | fuel + 1, cs =>
    match skipWs cs with
    | [] => none
    | c :: cs' =>
      if c = 'n' then
        match cs' with
        | 'u' :: 'l' :: 'l' :: r => some (.null, r)
        | _ => none
      else if c = 't' then
        match cs' with
        | 'r' :: 'u' :: 'e' :: r => some (.bool true, r)
        | _ => none
      else if c = 'f' then
        match cs' with
        | 'a' :: 'l' :: 's' :: 'e' :: r => some (.bool false, r)
        | _ => none
      else if c = '"' then
        (parseStrBody (cs'.length + 1) cs').map (fun p => (.str (String.mk p.1), p.2))
      else if c = '[' then
        match skipWs cs' with
        | [] => none
        | c2 :: r =>
          if c2 = ']' then some (.arr [], r)
          else (parseElems fuel (c2 :: r)).map (fun p => (.arr p.1, p.2))
      else if c = lbraceChar then
        match skipWs cs' with
        | [] => none
        | c2 :: r =>
          if c2 = rbraceChar then some (.obj [], r)
          else (parseMembers fuel (c2 :: r)).map (fun p => (.obj (buildObj p.1), p.2))
      else
        (parseNum (c :: cs')).map (fun p => (.num p.1, p.2))

/-- Parse the elements of a non-empty array, up to and including the
closing bracket. -/
def parseElems : Nat → List Char → Option (List JVal × List Char)
  | 0, _ => none
  | fuel + 1, cs =>
    match parseV fuel cs with
    | none => none
    | some (v, r) =>
      match skipWs r with
      | [] => none
      | c :: r' =>
        if c = ',' then
          match parseElems fuel r' with
          | none => none
          | some (es, r'') => some (v :: es, r'')
        else if c = ']' then some ([v], r')
        else none

/-- Parse the members of a non-empty object, up to and including the
closing brace. -/
def parseMembers : Nat → List Char → Option (List (String × JVal) × List Char)
  | 0, _ => none
  | fuel + 1, cs =>
    match skipWs cs with
    | '"' :: cs' =>
      match parseStrBody (cs'.length + 1) cs' with
      | none => none
      | some (k, r) =>
        match skipWs r with
        | ':' :: r' =>
          match parseV fuel r' with
          | none => none
          | some (v, r'') =>
            match skipWs r'' with
            | [] => none
            | c :: r₃ =>
              if c = ',' then
                match parseMembers fuel r₃ with
                | none => none
                | some (ms, r₄) => some ((String.mk k, v) :: ms, r₄)
              else if c = rbraceChar then some ([(String.mk k, v)], r₃)
              else none
        | _ => none
    | _ => none

end

/-- Parse a line as JSON, modelling `serde_json::from_str::<Value>`: parse
one value box then require only trailing whitespace. -/
def parseJson (s : String) : Option JVal :=
  match parseV (s.data.length + 1) s.data with
  | some (v, r) => if skipWs r = [] then some v else none
  | none => none

/-- Whether a line is blank, modelling `line.trim().is_empty()` (a line is
blank exactly when all its characters are whitespace). -/
def isBlank (l : String) : Bool :=
  l.data.all Char.isWhitespace

/-- State of the per-line loop of `fix_thinking_blocks` (lines 139-190 of
`thinking_fix.rs`): the processed lines accumulated so far and the four
counters. -/
structure FixState where
  out : List String
  total_lines : Nat
  modified_lines : Nat
  thinking_blocks_removed : Nat
  errors : Nat

/-- One iteration of the per-line loop of `fix_thinking_blocks`: blank
lines pass through; non-blank lines are counted, then parsed; a parsed
value is transformed by `fixValue` and re-serialized, counting a modified
line when the canonical form changed; a parse failure counts an error and
passes the line through. -/
def stepLine (st : FixState) (line : String) : FixState :=
  if isBlank line then { st with out := st.out ++ [line] }
  else
    let st := { st with total_lines := st.total_lines + 1 }
    match parseJson line with
    | some data =>
      let original := serialize data
      let fixed := fixValue data
      let new_json := serialize fixed.1
      { st with
        out := st.out ++ [new_json],
        thinking_blocks_removed := st.thinking_blocks_removed + fixed.2,
        modified_lines := st.modified_lines + (if new_json ≠ original then 1 else 0) }
    | none =>
      { st with out := st.out ++ [line], errors := st.errors + 1 }

/-- The initial loop state: no output, all counters zero. -/
def initState : FixState := ⟨[], 0, 0, 0, 0⟩

/-- The whole per-line loop of `fix_thinking_blocks` over a list of input
lines. -/
def processLines (lines : List String) : FixState :=
  lines.foldl stepLine initState

/-- The string a line is replaced by in the output buffer: blank and
unparseable lines verbatim, parsed lines by the canonical serialization of
their transformed value. -/
def lineTransform (l : String) : String :=
  if isBlank l then l
  else
    match parseJson l with
    | some v => serialize (fixValue v).1
    | none => l

/-- Contribution of one input line to the `thinking_blocks_removed`
counter. -/
def lineRemoved (l : String) : Nat :=
  if isBlank l then 0
  else
    match parseJson l with
    | some v => (fixValue v).2
    | none => 0

/-- Contribution of one input line to the `modified_lines` counter. -/
def lineModified (l : String) : Nat :=
  if isBlank l then 0
  else
    match parseJson l with
    | some v => if serialize (fixValue v).1 ≠ serialize v then 1 else 0
    | none => 0

/-- Contribution of one input line to the `total_lines` counter. -/
def lineTotal (l : String) : Nat :=
  if isBlank l then 0 else 1

/-- Contribution of one input line to the `errors` counter. -/
def lineErrCount (l : String) : Nat :=
  if isBlank l then 0
  else
    match parseJson l with
    | some _ => 0
    | none => 1

/-- Split a character list at every line feed, keeping empty segments
(the segment list is always non-empty). -/
def splitNl : List Char → List (List Char)
  | [] => [[]]
  | c :: cs =>
    match splitNl cs with
    | [] => [[]]
    | h :: t => if c = '\n' then [] :: h :: t else (c :: h) :: t

/-- Strip one trailing carriage return, as `str::lines` does at the end of
each line. -/
def stripCRChars (l : List Char) : List Char :=
  if l.getLast? = some '\r' then l.dropLast else l

/-- The lines of a file's content, modelling Rust's `str::lines`: split at
every line feed, drop the trailing empty segment produced by a final line
terminator, and strip one carriage return from the end of each line. -/
def rustLines (content : String) : List String :=
  let parts := splitNl content.data
  let parts := if parts.getLast? = some [] then parts.dropLast else parts
  parts.map (fun l => String.mk (stripCRChars l))

/-- Concatenate character lists with a line feed between consecutive
lists. -/
def joinLinesChars : List (List Char) → List Char
  | [] => []
  | [l] => l
  | l :: l' :: ls => l ++ '\n' :: joinLinesChars (l' :: ls)

/-- Join processed lines with a single line feed, modelling
`processed_lines.join("\n")`. -/
def joinNl (ls : List String) : String :=
  String.mk (joinLinesChars (ls.map String.data))

/-- The content written back by `fix_thinking_blocks`: the processed lines
of the input content, joined with line feeds. -/
def fixOutput (content : String) : String :=
  joinNl (processLines (rustLines content)).out

/-- An abstract filesystem: an association list from paths to file
contents. -/
def Fs : Type := List (String × String)

/-- Content of the file at a path, if present. -/
def fsLookup (fs : Fs) (p : String) : Option String :=
  match fs with
  | [] => none
  | (q, c) :: fs' => if q = p then some c else fsLookup fs' p

/-- Write a file: replace the content at the path, or create the file. -/
def fsWrite (fs : Fs) (p content : String) : Fs :=
  match fs with
  | [] => [(p, content)]
  | (q, c) :: fs' => if q = p then (q, content) :: fs' else (q, c) :: fsWrite fs' p content

/-- Rust's `Path::with_extension` applied to a path whose file name is
`stem` plus a single extension: the extension is replaced. -/
def withExt (stem ext : String) : String :=
  stem ++ "." ++ ext

/-- The backup-and-overwrite tail of `fix_thinking_blocks` (lines 192-210
of `thinking_fix.rs`), over the abstract filesystem.  `stem` is the target
path without its `jsonl` extension, `ts` the current local timestamp
formatted `YYYYMMDD_HHMMSS`, and `output` the joined processed content.
The flags model success of the two fallible system calls: `fs::copy` and
`fs::write`.  The result is the filesystem after the operation together
with `Ok` of the backup path used, or `Err` of the error message. -/
def backupAndWrite (fs : Fs) (copyOk writeOk : Bool) (stem ts output : String) :
    Fs × Except String String :=
  let jsonl_path := withExt stem "jsonl"
  let backup_path := withExt stem "jsonl.bak"
  if (fsLookup fs backup_path).isSome then
    let new_backup := withExt stem (ts ++ ".bak")
    if copyOk then
      let fs1 := fsWrite fs new_backup ((fsLookup fs jsonl_path).getD "")
      if writeOk then (fsWrite fs1 jsonl_path output, .ok new_backup)
      else (fs1, .error "Failed to write JSONL file")
    else (fs, .error "Failed to create backup")
  else
    if copyOk then
      let fs1 := fsWrite fs backup_path ((fsLookup fs jsonl_path).getD "")
      if writeOk then (fsWrite fs1 jsonl_path output, .ok backup_path)
      else (fs1, .error "Failed to write JSONL file")
    else (fs, .error "Failed to create backup")

/-- A directory entry as observed through `fs::read_dir`: its file name,
full path, whether it is a directory, its extension (`Path::extension`),
and its modification time in epoch milliseconds when readable (the
`metadata → modified → duration_since` chain collapsed to an option). -/
structure DirEntry where
  name : String
  path : String
  is_dir : Bool
  ext : Option String
  modified : Option Nat

/-- A project entry returned by `get_claude_projects`. -/
structure ClaudeProject where
  name : String
  path : String
  last_modified : Nat

/-- The lister `get_claude_projects` (lines 50-92 of `thinking_fix.rs`).
`root_exists` models `projects_dir.exists()`; `entries` is `some` of the
directory listing, or `none` when `fs::read_dir` fails.  Non-directory
entries are skipped, unreadable modification times default to `0`, and the
result is sorted by modification time descending. -/
def get_claude_projects (root_exists : Bool) (entries : Option (List DirEntry)) :
    Except String (List ClaudeProject) :=
  if !root_exists then .ok []
  else
    match entries with
    | none => .error "Failed to read projects directory"
    | some es =>
      let projects := es.filterMap (fun e =>
        if !e.is_dir then none
        else some { name := e.name, path := e.path, last_modified := e.modified.getD 0 })
      .ok (projects.mergeSort (fun a b => b.last_modified ≤ a.last_modified))

/-- The filtering stage of `find_latest_jsonl` (lines 98-109 of
`thinking_fix.rs`): keep the entries whose extension is `jsonl` and whose
modification time is readable, pairing each path with its modification
time.  The entry kind (file or directory) is not consulted. -/
def matchingFiles (es : List DirEntry) : List (String × Nat) :=
  es.filterMap (fun e =>
    if e.ext = some "jsonl" then e.modified.map (fun m => (e.path, m)) else none)

/-- The finder `find_latest_jsonl`, continued: sort the matching entries by
modification time descending and return the first path, if any. -/
def find_latest_jsonl (entries : Option (List DirEntry)) : Option String :=
  match entries with
  | none => none
  | some es =>
    let sorted := (matchingFiles es).mergeSort (fun a b => b.2 ≤ a.2)
    sorted.head?.map Prod.fst

/-- The example content item `{"type":"thinking","x":1}`. -/
def exThinking : JVal := .obj [("type", .str "thinking"), ("x", .num 1)]

/-- The example content item `{"type":"text","x":2}`. -/
def exText : JVal := .obj [("type", .str "text"), ("x", .num 2)]

/-- The rest of the input after a token must not begin with a digit for
the token boundary to be preserved. -/
def noDigitHead : List Char → Prop
  | [] => True
  | c :: _ => digitVal c = none

/-! ### Helper lemmas: filesystem model -/

theorem fsLookup_fsWrite_self (fs : Fs) (p c : String) :
    fsLookup (fsWrite fs p c) p = some c := by
  induction fs with
  | nil => simp [fsWrite, fsLookup]
  | cons qc fs ih =>
    obtain ⟨q, c'⟩ := qc
    by_cases h : q = p <;> simp [fsWrite, fsLookup, h, ih]

theorem fsLookup_fsWrite_ne (fs : Fs) {p q : String} (h : q ≠ p) (c : String) :
    fsLookup (fsWrite fs p c) q = fsLookup fs q := by
  induction fs with
  | nil => simp [fsWrite, fsLookup, Ne.symm h]
  | cons rc fs ih =>
    obtain ⟨r, c'⟩ := rc
    by_cases hr : r = p
    · subst hr
      simp [fsWrite, fsLookup, Ne.symm h]
    · simp [fsWrite, fsLookup, hr, ih]

theorem string_data_inj {s t : String} (h : s.data = t.data) : s = t :=
  congrArg String.mk h

theorem withExt_inj_ext {stem e1 e2 : String} (h : withExt stem e1 = withExt stem e2) :
    e1 = e2 := by
  unfold withExt at h
  have hd := congrArg String.data h
  rw [String.data_append, String.data_append, String.data_append, String.data_append,
    List.append_assoc, List.append_assoc] at hd
  exact string_data_inj (List.append_cancel_left (List.append_cancel_left hd))

theorem bak_ne_jsonl (ts : String) : ts ++ ".bak" ≠ "jsonl" := by
  intro h
  have hd := congrArg String.data h
  rw [String.data_append] at hd
  have hlast := congrArg List.getLast? hd
  rw [List.getLast?_append] at hlast
  simp at hlast

theorem withExt_bak_ne (stem : String) : withExt stem "jsonl.bak" ≠ withExt stem "jsonl" :=
  fun h => by simpa using withExt_inj_ext h

theorem withExt_ts_ne (stem ts : String) :
    withExt stem (ts ++ ".bak") ≠ withExt stem "jsonl" :=
  fun h => bak_ne_jsonl ts (withExt_inj_ext h)

/-! ### Helper lemmas: descending merge sort -/

theorem mergeSort_desc_sorted {α : Type} (key : α → Nat) (l : List α) :
    List.Pairwise (fun a b => key b ≤ key a)
      (l.mergeSort (fun a b => decide (key b ≤ key a))) := by
  have h := @List.sorted_mergeSort _ (fun a b => decide (key b ≤ key a))
    (fun a b c h₁ h₂ => by
      simp only [decide_eq_true_eq] at h₁ h₂ ⊢
      omega)
    (fun a b => by
      simp only [Bool.or_eq_true, decide_eq_true_eq]
      omega) l
  exact h.imp (fun hab => by simpa using hab)

theorem mergeSort_head_max {α : Type} (key : α → Nat) (l : List α) (h : l ≠ []) :
    ∃ p, (l.mergeSort (fun a b => decide (key b ≤ key a))).head? = some p ∧
      p ∈ l ∧ ∀ x ∈ l, key x ≤ key p := by
  have hpw := mergeSort_desc_sorted key l
  cases hms : l.mergeSort (fun a b => decide (key b ≤ key a)) with
  | nil =>
    have hperm := List.mergeSort_perm l (fun a b => decide (key b ≤ key a))
    rw [hms] at hperm
    exact absurd hperm.symm.eq_nil h
  | cons p t =>
    rw [hms] at hpw
    refine ⟨p, rfl, ?_, ?_⟩
    · have : p ∈ l.mergeSort (fun a b => decide (key b ≤ key a)) := by
        rw [hms]; exact List.mem_cons_self p t
      exact List.mem_mergeSort.mp this
    · intro x hx
      have hx' : x ∈ l.mergeSort (fun a b => decide (key b ≤ key a)) :=
        List.mem_mergeSort.mpr hx
      rw [hms] at hx'
      rcases List.mem_cons.mp hx' with rfl | hxt
      · exact le_refl _
      · exact (List.pairwise_cons.mp hpw).1 x hxt

/-! ### Claims about the directory operations and the backup step -/

/-- C7: when the fixed projects root directory does not exist,
`get_claude_projects` returns an empty list, not an error. -/
theorem C7_missing_root_empty (entries : Option (List DirEntry)) :
    get_claude_projects false entries = .ok [] := rfl

/-- C6: every list returned by `get_claude_projects` is sorted by
`last_modified` descending, and a subdirectory whose modification time
cannot be read still appears in the list with `last_modified = 0` instead
of failing the call. -/
theorem C6_sorted_and_metadata_fallback (es : List DirEntry) :
    ∃ l, get_claude_projects true (some es) = .ok l ∧
      List.Pairwise (fun a b : ClaudeProject => b.last_modified ≤ a.last_modified) l ∧
      ∀ e ∈ es, e.is_dir = true → e.modified = none →
        ({ name := e.name, path := e.path, last_modified := 0 } : ClaudeProject) ∈ l := by
  refine ⟨_, rfl, ?_, ?_⟩
  · exact mergeSort_desc_sorted (fun p : ClaudeProject => p.last_modified) _
  · intro e he hdir hmod
    apply List.mem_mergeSort.mpr
    apply List.mem_filterMap.mpr
    exact ⟨e, he, by simp [hdir, hmod]⟩

/-- C6 witness: a directory entry with unreadable metadata appears with
timestamp `0` in the returned sorted list. -/
theorem C6_sorted_and_metadata_fallback_witness :
    ∃ l, get_claude_projects true (some [⟨"b", "/b", true, none, none⟩]) = .ok l ∧
      List.Pairwise (fun a b : ClaudeProject => b.last_modified ≤ a.last_modified) l ∧
      ∀ e ∈ [(⟨"b", "/b", true, none, none⟩ : DirEntry)], e.is_dir = true → e.modified = none →
        ({ name := e.name, path := e.path, last_modified := 0 } : ClaudeProject) ∈ l :=
  C6_sorted_and_metadata_fallback [⟨"b", "/b", true, none, none⟩]

/-- C3: before overwriting, the fixer copies the original content to
`<stem>.jsonl.bak` when that path is free, otherwise to
`<stem>.<timestamp>.bak`; and when the backup copy fails the operation
returns an error with the filesystem unchanged. -/
theorem C3_backup_before_overwrite (fs : Fs) (stem ts output orig : String)
    (horig : fsLookup fs (withExt stem "jsonl") = some orig) :
    (fsLookup fs (withExt stem "jsonl.bak") = none →
      (backupAndWrite fs true true stem ts output).2 = .ok (withExt stem "jsonl.bak") ∧
      fsLookup (backupAndWrite fs true true stem ts output).1 (withExt stem "jsonl.bak") =
        some orig) ∧
    ((fsLookup fs (withExt stem "jsonl.bak")).isSome = true →
      (backupAndWrite fs true true stem ts output).2 = .ok (withExt stem (ts ++ ".bak")) ∧
      fsLookup (backupAndWrite fs true true stem ts output).1 (withExt stem (ts ++ ".bak")) =
        some orig) ∧
    (∀ writeOk, backupAndWrite fs false writeOk stem ts output =
      (fs, .error "Failed to create backup")) := by
  refine ⟨?_, ?_, ?_⟩
  · intro hfree
    constructor
    · simp [backupAndWrite, hfree]
    · rw [backupAndWrite]
      simp only [hfree, Option.isSome_none, Bool.false_eq_true, if_false, if_true]
      rw [fsLookup_fsWrite_ne _ (withExt_bak_ne stem) _, fsLookup_fsWrite_self, horig]
      rfl
  · intro htaken
    constructor
    · simp [backupAndWrite, htaken]
    · rw [backupAndWrite]
      simp only [htaken, if_true]
      rw [fsLookup_fsWrite_ne _ (withExt_ts_ne stem ts) _, fsLookup_fsWrite_self, horig]
      rfl
  · intro writeOk
    rw [backupAndWrite]
    by_cases h : (fsLookup fs (withExt stem "jsonl.bak")).isSome <;> simp [h]

/-- C3 witness: on a concrete filesystem holding only the target file, the
fixer backs up to `p.jsonl.bak`; on one where that backup exists, to the
timestamped path; and a failing copy leaves the filesystem unchanged. -/
theorem C3_backup_before_overwrite_witness :
    (backupAndWrite [("p.jsonl", "C")] true true "p" "20261012_010101" "OUT").2 =
      .ok "p.jsonl.bak" ∧
    fsLookup (backupAndWrite [("p.jsonl", "C")] true true "p" "20261012_010101" "OUT").1
      "p.jsonl.bak" = some "C" ∧
    backupAndWrite [("p.jsonl", "C")] false true "p" "20261012_010101" "OUT" =
      ([("p.jsonl", "C")], .error "Failed to create backup") := by
  have h := C3_backup_before_overwrite [("p.jsonl", "C")] "p" "20261012_010101" "OUT" "C" rfl
  exact ⟨(h.1 rfl).1, (h.1 rfl).2, h.2.2 true⟩

/-- C5 counterexample: `find_latest_jsonl` does not restrict attention to
files.  A directory entry named `d.jsonl` (with `is_dir = true`) is
selected and returned, where the claim — which says only files are
considered — would require the result `none`. -/
theorem C5_counterexample :
    find_latest_jsonl
      (some [{ name := "d.jsonl", path := "/p/d.jsonl", is_dir := true,
               ext := some "jsonl", modified := some 5 }]) = some "/p/d.jsonl" ∧
    ({ name := "d.jsonl", path := "/p/d.jsonl", is_dir := true,
       ext := some "jsonl", modified := some 5 } : DirEntry).is_dir = true := by
  constructor
  · simp [find_latest_jsonl, matchingFiles]
  · rfl

/-- C5 (amended): the finder considers the entries — of any kind, files
and directories alike — whose extension equals `jsonl` and whose
modification time is readable; it returns a path with the most recent
modification time among those when any exists, and `none` both when no
entry matches and when reading the directory fails. -/
theorem C5_latest_jsonl_spec :
    find_latest_jsonl none = none ∧
    (∀ es, matchingFiles es = [] → find_latest_jsonl (some es) = none) ∧
    (∀ es, matchingFiles es ≠ [] → ∃ p m, find_latest_jsonl (some es) = some p ∧
      (p, m) ∈ matchingFiles es ∧ ∀ q ∈ matchingFiles es, q.2 ≤ m) := by
  refine ⟨rfl, ?_, ?_⟩
  · intro es hempty
    simp [find_latest_jsonl, hempty]
  · intro es hne
    obtain ⟨p, hhead, hmem, hmax⟩ :=
      mergeSort_head_max (fun q : String × Nat => q.2) (matchingFiles es) hne
    exact ⟨p.1, p.2, by simp [find_latest_jsonl, hhead], hmem, hmax⟩

/-- C5 witness: with two matching files and one non-matching entry, the
most recently modified matching path is returned. -/
theorem C5_latest_jsonl_spec_witness :
    matchingFiles [{ name := "a.jsonl", path := "/a.jsonl", is_dir := false,
                     ext := some "jsonl", modified := some 3 },
                   { name := "c.txt", path := "/c.txt", is_dir := false,
                     ext := some "txt", modified := some 99 }] ≠ [] ∧
    ∃ p m, find_latest_jsonl
        (some [{ name := "a.jsonl", path := "/a.jsonl", is_dir := false,
                 ext := some "jsonl", modified := some 3 },
               { name := "c.txt", path := "/c.txt", is_dir := false,
                 ext := some "txt", modified := some 99 }]) = some p ∧
      (p, m) ∈ matchingFiles [{ name := "a.jsonl", path := "/a.jsonl", is_dir := false,
                                ext := some "jsonl", modified := some 3 },
                              { name := "c.txt", path := "/c.txt", is_dir := false,
                                ext := some "txt", modified := some 99 }] ∧
      ∀ q ∈ matchingFiles [{ name := "a.jsonl", path := "/a.jsonl", is_dir := false,
                             ext := some "jsonl", modified := some 3 },
                           { name := "c.txt", path := "/c.txt", is_dir := false,
                             ext := some "txt", modified := some 99 }], q.2 ≤ m := by
  refine ⟨by simp [matchingFiles], C5_latest_jsonl_spec.2.2 _ (by simp [matchingFiles])⟩

/-! ### Helper lemmas: blank lines and parse failures -/

theorem isWsChar_eq_isWhitespace (c : Char) : isWsChar c = c.isWhitespace := by
  rw [Bool.eq_iff_iff]
  simp only [isWsChar, Char.isWhitespace, Bool.or_eq_true, decide_eq_true_eq]
  tauto

theorem skipWs_nil_of_all (l : List Char) (h : l.all isWsChar = true) : skipWs l = [] := by
  induction l with
  | nil => rfl
  | cons c cs ih =>
    simp only [List.all_cons, Bool.and_eq_true] at h
    simp [skipWs, h.1, ih h.2]

theorem parseJson_blank {l : String} (h : isBlank l = true) : parseJson l = none := by
  have hws : skipWs l.data = [] := by
    apply skipWs_nil_of_all
    simp only [isBlank, List.all_eq_true] at h
    simp only [List.all_eq_true]
    intro c hc
    rw [isWsChar_eq_isWhitespace]
    exact h c hc
  simp [parseJson, parseV, hws]

theorem not_blank_of_parse {l : String} {v : JVal} (h : parseJson l = some v) :
    isBlank l = false := by
  cases hb : isBlank l with
  | false => rfl
  | true => rw [parseJson_blank hb] at h; cases h

/-! ### Helper lemmas: the per-value transform -/

theorem fixValue_noop {v : JVal} (h : hasContentArray v = false) : fixValue v = (v, 0) := by
  cases h1 : jGet v "message" with
  | none => simp [fixValue, h1]
  | some msg =>
    cases h2 : jGet msg "content" with
    | none => simp [fixValue, h1, h2]
    | some w => cases w <;> simp_all [fixValue, hasContentArray, h1, h2]

theorem length_filter_not {α : Type} (p : α → Bool) (l : List α) :
    (l.filter (fun a => !p a)).length = l.length - (l.filter p).length := by
  induction l with
  | nil => rfl
  | cons a l ih =>
    by_cases h : p a <;> simp [List.filter_cons, h, ih] <;>
      have := List.length_filter_le p l <;> omega

theorem keepItem_false_iff (i : JVal) :
    keepItem i = false ↔
      jGet i "type" = some (.str "thinking") ∨ jGet i "type" = some (.str "redacted_thinking") := by
  unfold keepItem
  cases h : jGet i "type" with
  | none => simp
  | some w => cases w <;> simp_all <;> tauto

/-! ### Claims about the per-line transform -/

/-- C8: a blank (all-whitespace) line is emitted unchanged and none of the
counters change. -/
theorem C8_blank_line_passthrough (st : FixState) (line : String) (h : isBlank line = true) :
    stepLine st line = { st with out := st.out ++ [line] } := by
  simp [stepLine, h]

/-- C8 witness: the blank line of two spaces passes through with all
counters still zero. -/
theorem C8_blank_line_passthrough_witness :
    isBlank "  " = true ∧
    stepLine initState "  " = { out := ["  "], total_lines := 0, modified_lines := 0,
                                thinking_blocks_removed := 0, errors := 0 } :=
  ⟨rfl, (C8_blank_line_passthrough initState "  " rfl).trans rfl⟩

/-- C4: a non-blank line that fails to parse as JSON increments both
`errors` and `total_lines`, is emitted unchanged, and the loop continues
with the remaining lines. -/
theorem C4_parse_error_soft (st : FixState) (line : String) (rest : List String)
    (hb : isBlank line = false) (hp : parseJson line = none) :
    List.foldl stepLine st (line :: rest) =
      List.foldl stepLine
        { st with out := st.out ++ [line], total_lines := st.total_lines + 1,
                  errors := st.errors + 1 } rest := by
  have hstep : stepLine st line =
      { st with out := st.out ++ [line], total_lines := st.total_lines + 1,
                errors := st.errors + 1 } := by
    simp [stepLine, hb, hp]
  rw [List.foldl_cons, hstep]

/-- C4 witness: the malformed line `not json` is counted as an error and a
total line, emitted unchanged, and processing continues to a later line. -/
theorem C4_parse_error_soft_witness :
    isBlank "not json" = false ∧ parseJson "not json" = none ∧
    List.foldl stepLine initState ["not json", "  "] =
      List.foldl stepLine
        { out := ["not json"], total_lines := 1, modified_lines := 0,
          thinking_blocks_removed := 0, errors := 1 } ["  "] :=
  ⟨rfl, rfl, (C4_parse_error_soft initState "not json" ["  "] rfl rfl).trans rfl⟩

/-- C9: a parsed line without a `message.content` array path is a no-op:
the emitted line is the canonical serialization of the same value, and of
the counters only `total_lines` increases. -/
theorem C9_no_content_path_noop (st : FixState) (line : String) (v : JVal)
    (hp : parseJson line = some v) (hno : hasContentArray v = false) :
    stepLine st line =
      { st with out := st.out ++ [serialize v], total_lines := st.total_lines + 1 } := by
  have hb : isBlank line = false := not_blank_of_parse hp
  simp [stepLine, hb, hp, fixValue_noop hno]

/-- C9 witness: the line `{"a":1}` has no `message.content` path; only
`total_lines` moves, and the canonical serialization is emitted. -/
theorem C9_no_content_path_noop_witness :
    parseJson "\x7b\"a\":1\x7d" = some (.obj [("a", .num 1)]) ∧
    hasContentArray (.obj [("a", .num 1)]) = false ∧
    stepLine initState "\x7b\"a\":1\x7d" =
      { out := ["\x7b\"a\":1\x7d"], total_lines := 1, modified_lines := 0,
        thinking_blocks_removed := 0, errors := 0 } :=
  ⟨rfl, rfl,
    (C9_no_content_path_noop initState "\x7b\"a\":1\x7d" (.obj [("a", .num 1)]) rfl rfl).trans
      rfl⟩

/-- C1: on a parsed value with a `message.content` array, the transform
removes exactly the elements whose `type` is `"thinking"` or
`"redacted_thinking"`, keeps the rest in order (a filter), and reports the
number of removed elements; on the specific line
`{"message":{"content":[{"type":"thinking","x":1},{"type":"text","x":2}]}}`
the resulting array holds exactly the `"text"` element and the counters
`thinking_blocks_removed`, `modified_lines` and `total_lines` each
increase by one. -/
theorem C1_removes_thinking_blocks :
    (∀ v msg items, jGet v "message" = some msg → jGet msg "content" = some (.arr items) →
      fixValue v = (jSet v "message" (jSet msg "content" (.arr (items.filter keepItem))),
        (items.filter (fun i => !keepItem i)).length) ∧
      (∀ i, keepItem i = false ↔
        (jGet i "type" = some (.str "thinking") ∨
         jGet i "type" = some (.str "redacted_thinking")))) ∧
    processLines
      ["\x7b\"message\":\x7b\"content\":[\x7b\"type\":\"thinking\",\"x\":1\x7d,\x7b\"type\":\"text\",\"x\":2\x7d]\x7d\x7d"] =
      { out := ["\x7b\"message\":\x7b\"content\":[\x7b\"type\":\"text\",\"x\":2\x7d]\x7d\x7d"],
        total_lines := 1, modified_lines := 1, thinking_blocks_removed := 1, errors := 0 } := by
  constructor
  · intro v msg items h1 h2
    refine ⟨?_, keepItem_false_iff⟩
    simp only [fixValue, h1, h2]
    rw [length_filter_not]
  · rfl

/-- C1 witness: the transform applied to the example value removes the
thinking element and keeps the text element. -/
theorem C1_removes_thinking_blocks_witness :
    fixValue (.obj [("message", .obj [("content", .arr [exThinking, exText])])]) =
      (jSet (.obj [("message", .obj [("content", .arr [exThinking, exText])])]) "message"
        (jSet (.obj [("content", .arr [exThinking, exText])]) "content"
          (.arr ([exThinking, exText].filter keepItem))),
        ([exThinking, exText].filter (fun i => !keepItem i)).length) :=
  (C1_removes_thinking_blocks.1
    (.obj [("message", .obj [("content", .arr [exThinking, exText])])])
    (.obj [("content", .arr [exThinking, exText])]) [exThinking, exText] rfl rfl).1

/-! ### Helper lemmas: closed form of the per-line loop -/

theorem stepLine_eq (st : FixState) (l : String) :
    stepLine st l =
      { out := st.out ++ [lineTransform l],
        total_lines := st.total_lines + lineTotal l,
        modified_lines := st.modified_lines + lineModified l,
        thinking_blocks_removed := st.thinking_blocks_removed + lineRemoved l,
        errors := st.errors + lineErrCount l } := by
  by_cases hb : isBlank l
  · simp [stepLine, lineTransform, lineTotal, lineModified, lineRemoved, lineErrCount, hb]
  · cases hp : parseJson l <;>
      simp [stepLine, lineTransform, lineTotal, lineModified, lineRemoved, lineErrCount, hb, hp]

theorem foldl_stepLine_eq (ls : List String) (st : FixState) :
    List.foldl stepLine st ls =
      { out := st.out ++ ls.map lineTransform,
        total_lines := st.total_lines + (ls.map lineTotal).sum,
        modified_lines := st.modified_lines + (ls.map lineModified).sum,
        thinking_blocks_removed := st.thinking_blocks_removed + (ls.map lineRemoved).sum,
        errors := st.errors + (ls.map lineErrCount).sum } := by
  induction ls generalizing st with
  | nil => simp
  | cons l ls ih =>
    rw [List.foldl_cons, stepLine_eq, ih]
    simp [List.append_assoc, Nat.add_assoc]

theorem processLines_eq (ls : List String) :
    processLines ls =
      { out := ls.map lineTransform,
        total_lines := (ls.map lineTotal).sum,
        modified_lines := (ls.map lineModified).sum,
        thinking_blocks_removed := (ls.map lineRemoved).sum,
        errors := (ls.map lineErrCount).sum } := by
  rw [processLines, initState, foldl_stepLine_eq]
  simp

/-! ### Claim C2: line structure of the rewritten file -/

/-- C2 counterexample: the file content consisting of a single line feed
has one (blank) line, but the content written back is empty and has zero
lines, because the processed lines are rejoined with `\n` — so the on-disk
file does not always keep the same number of lines. -/
theorem C2_line_count_counterexample :
    (rustLines "\n").length = 1 ∧ (rustLines (fixOutput "\n")).length = 0 :=
  ⟨rfl, rfl⟩

/-- C2 (amended): the processed line list has exactly the input's lines,
in order and one-for-one: a blank or unparseable line is kept verbatim and
a parsed line is replaced by the canonical serialization of its
transformed value; the content written back is this list joined with
single line feeds (which is why a trailing blank line — the file's
trailing newline — can be lost on disk). -/
theorem C2_lines_elementwise (content : String) :
    (processLines (rustLines content)).out.length = (rustLines content).length ∧
    List.Forall₂
      (fun a b => (isBlank a = true ∧ b = a) ∨
        (isBlank a = false ∧ parseJson a = none ∧ b = a) ∨
        (∃ v, parseJson a = some v ∧ b = serialize (fixValue v).1))
      (rustLines content) (processLines (rustLines content)).out ∧
    fixOutput content = joinNl ((rustLines content).map lineTransform) := by
  have hout : (processLines (rustLines content)).out = (rustLines content).map lineTransform := by
    rw [processLines_eq]
  refine ⟨by rw [hout, List.length_map], ?_, by rw [fixOutput, hout]⟩
  rw [hout]
  generalize rustLines content = ls
  induction ls with
  | nil => exact List.Forall₂.nil
  | cons l ls ih =>
    refine List.Forall₂.cons ?_ ih
    by_cases hb : isBlank l
    · exact Or.inl ⟨hb, by simp [lineTransform, hb]⟩
    · cases hp : parseJson l with
      | none =>
        exact Or.inr (Or.inl ⟨by simpa using hb, rfl, by simp [lineTransform, hb, hp]⟩)
      | some v =>
        exact Or.inr (Or.inr ⟨v, rfl, by simp [lineTransform, hb, hp]⟩)

/-! ### Round trip, step 1: digits and numbers -/

theorem digitVal_digitChar : ∀ d < 10, digitVal (digitChar d) = some d := by decide

theorem charOfNat_toNat {n : Nat} (h : n < 55296) : (Char.ofNat n).toNat = n := by
  unfold Char.ofNat
  rw [dif_pos (Or.inl h)]
  rfl

theorem digitChar_toNat {d : Nat} (h : d < 10) : (digitChar d).toNat = 48 + d :=
  charOfNat_toNat (by omega)

theorem parseDigitsAux_stop (acc : Nat) {rest : List Char} (h : noDigitHead rest) :
    parseDigitsAux acc rest = (acc, rest) := by
  cases rest with
  | nil => rfl
  | cons c cs => simp only [noDigitHead] at h; simp [parseDigitsAux, h]

theorem natCharsAux_parse (fuel : Nat) : ∀ n, n < fuel → ∀ acc rest,
    parseDigitsAux acc (natCharsAux fuel n ++ rest) =
      parseDigitsAux (acc * 10 ^ (natCharsAux fuel n).length + n) rest := by
  induction fuel with
  | zero => omega
  | succ fuel ih =>
    intro n h acc rest
    by_cases h10 : n < 10
    · simp only [natCharsAux, if_pos h10, List.singleton_append, List.length_singleton,
        pow_one]
      simp [parseDigitsAux, digitVal_digitChar n h10]
    · have hdiv : n / 10 < fuel := by
        have := Nat.div_lt_self (show 0 < n by omega) (show 1 < 10 by omega)
        omega
      simp only [natCharsAux, if_neg h10, List.append_assoc, List.singleton_append]
      rw [ih (n / 10) hdiv acc (digitChar (n % 10) :: rest)]
      simp only [parseDigitsAux, digitVal_digitChar (n % 10) (Nat.mod_lt _ (by omega))]
      congr 1
      simp only [List.length_append, List.length_singleton, pow_succ, ← mul_assoc]
      have hd := Nat.div_add_mod n 10
      generalize acc * 10 ^ (natCharsAux fuel (n / 10)).length = m
      omega

theorem natCharsAux_head (fuel : Nat) : ∀ n, n < fuel →
    ∃ c cs, natCharsAux fuel n = c :: cs ∧ ∃ d, d < 10 ∧ c = digitChar d := by
  induction fuel with
  | zero => omega
  | succ fuel ih =>
    intro n h
    by_cases h10 : n < 10
    · exact ⟨digitChar n, [], by simp [natCharsAux, h10], n, h10, rfl⟩
    · have hdiv : n / 10 < fuel := by
        have := Nat.div_lt_self (show 0 < n by omega) (show 1 < 10 by omega)
        omega
      obtain ⟨c, cs, hc, d, hd, hcd⟩ := ih (n / 10) hdiv
      exact ⟨c, cs ++ [digitChar (n % 10)], by simp [natCharsAux, h10, hc], d, hd, hcd⟩

theorem parseNatTok_natChars (n : Nat) {rest : List Char} (h : noDigitHead rest) :
    parseNatTok (natChars n ++ rest) = some (n, rest) := by
  obtain ⟨c, cs, hc, d, hd10, hcd⟩ := natCharsAux_head (n + 1) n (by omega)
  unfold natChars
  rw [hc, hcd, List.cons_append]
  simp only [parseNatTok, digitVal_digitChar d hd10, Option.isSome_some, if_true]
  rw [← List.cons_append, ← hcd, ← hc, natCharsAux_parse (n + 1) n (by omega)]
  simp [parseDigitsAux_stop _ h]

theorem digitChar_ne_minus {d : Nat} (h : d < 10) : digitChar d ≠ '-' := by
  intro heq
  have := congrArg Char.toNat heq
  rw [digitChar_toNat h] at this
  simp at this
  omega

theorem parseNum_intChars (i : Int) {rest : List Char} (h : noDigitHead rest) :
    parseNum (intChars i ++ rest) = some (i, rest) := by
  cases i with
  | ofNat n =>
    obtain ⟨c, cs, hc, d, hd10, hcd⟩ := natCharsAux_head (n + 1) n (by omega)
    have hnat : intChars (Int.ofNat n) = natChars n := rfl
    rw [hnat]
    unfold natChars
    rw [hc, hcd, List.cons_append]
    simp only [parseNum]
    rw [if_neg (digitChar_ne_minus hd10), ← List.cons_append, ← hcd, ← hc]
    have hpt := parseNatTok_natChars n h
    unfold natChars at hpt
    rw [hpt]
    rfl
  | negSucc m =>
    have hneg : intChars (Int.negSucc m) = '-' :: natChars (m + 1) := rfl
    rw [hneg, List.cons_append]
    simp only [parseNum, if_true]
    rw [parseNatTok_natChars (m + 1) h]
    simp [Int.negSucc_eq]

/-! ### Round trip, step 2: string escapes -/

theorem hexVal_hexChar : ∀ d < 16, hexVal (hexChar d) = some d := by decide

theorem escChar_length_pos (c : Char) : 1 ≤ (escChar c).length := by
  unfold escChar
  split_ifs <;> simp

theorem parseEsc_u {na nb nc nd n : Nat} (f : Nat) (a b c2 d : Char) (L : List Char)
    (ha : hexVal a = some na) (hb : hexVal b = some nb) (hc : hexVal c2 = some nc)
    (hd : hexVal d = some nd) (hval : ((na * 16 + nb) * 16 + nc) * 16 + nd = n)
    (hn : n < 55296) :
    parseEsc (f + 1) ('u' :: a :: b :: c2 :: d :: L) =
      (parseStrBody f L).map (fun p => (Char.ofNat n :: p.1, p.2)) := by
  simp only [parseEsc, ha, hb, hc, hd, hval]
  simp only [if_pos (Or.inl hn)]
  simp

theorem psb_backslash (f : Nat) (L : List Char) :
    parseStrBody (f + 2) ('\\' :: L) = parseEsc (f + 1) L := rfl

theorem pe_quote (f : Nat) (L : List Char) :
    parseEsc (f + 1) ('"' :: L) = (parseStrBody f L).map (fun p => ('"' :: p.1, p.2)) := rfl

theorem pe_bs (f : Nat) (L : List Char) :
    parseEsc (f + 1) ('\\' :: L) = (parseStrBody f L).map (fun p => ('\\' :: p.1, p.2)) := rfl

theorem pe_slash (f : Nat) (L : List Char) :
    parseEsc (f + 1) ('/' :: L) = (parseStrBody f L).map (fun p => ('/' :: p.1, p.2)) := rfl

theorem pe_b (f : Nat) (L : List Char) :
    parseEsc (f + 1) ('b' :: L) =
      (parseStrBody f L).map (fun p => (Char.ofNat 8 :: p.1, p.2)) := rfl

theorem pe_f (f : Nat) (L : List Char) :
    parseEsc (f + 1) ('f' :: L) =
      (parseStrBody f L).map (fun p => (Char.ofNat 12 :: p.1, p.2)) := rfl

theorem pe_n (f : Nat) (L : List Char) :
    parseEsc (f + 1) ('n' :: L) = (parseStrBody f L).map (fun p => ('\n' :: p.1, p.2)) := rfl

theorem pe_r (f : Nat) (L : List Char) :
    parseEsc (f + 1) ('r' :: L) = (parseStrBody f L).map (fun p => ('\r' :: p.1, p.2)) := rfl

theorem pe_t (f : Nat) (L : List Char) :
    parseEsc (f + 1) ('t' :: L) = (parseStrBody f L).map (fun p => ('\t' :: p.1, p.2)) := rfl

theorem psb_raw (f : Nat) (c : Char) (L : List Char) (h1 : ¬c = '"') (h2 : ¬c = '\\')
    (h3 : ¬c.toNat < 32) :
    parseStrBody (f + 1) (c :: L) = (parseStrBody f L).map (fun p => (c :: p.1, p.2)) := by
  rw [parseStrBody]
  rw [if_neg h1, if_neg h2, if_neg h3]

theorem escChar_raw_of_short (c : Char) (h : (escChar c).length ≤ 1) : escChar c = [c] := by
  unfold escChar at h ⊢
  split_ifs at h ⊢ <;> simp_all

theorem escChar_raw_inv (c : Char) (hraw : escChar c = [c]) :
    ¬c = '"' ∧ ¬c = '\\' ∧ ¬c.toNat < 32 := by
  have hlen2 : (escChar c).length = 1 := by rw [hraw]; rfl
  refine ⟨?_, ?_, ?_⟩
  · intro hcq
    rw [hcq] at hlen2
    simp [escChar] at hlen2
  · intro hcq
    rw [hcq] at hlen2
    simp [escChar] at hlen2
  · intro hlt
    clear hraw
    unfold escChar at hlen2
    split_ifs at hlen2 with g1 g2 g3 g4 g5 g6 g7 g8
    all_goals
      first
      | exact absurd hlt g8
      | (simp only [List.length_cons, List.length_nil] at hlen2; omega)

theorem parseStrBody_escape (cs : List Char) : ∀ fuel rest,
    (cs.flatMap escChar).length < fuel →
    parseStrBody fuel (cs.flatMap escChar ++ '"' :: rest) = some (cs, rest) := by
  induction cs with
  | nil =>
    intro fuel rest hlen
    match fuel, hlen with
    | fuel + 1, _ => rfl
  | cons c cs ih =>
    intro fuel rest hlen
    rw [List.flatMap_cons] at hlen ⊢
    rw [List.append_assoc]
    by_cases hesc : 2 ≤ (escChar c).length
    · obtain ⟨f, rfl⟩ : ∃ f, fuel = f + 2 := by
        refine ⟨fuel - 2, ?_⟩
        simp only [List.length_append] at hlen
        omega
      have hf : (cs.flatMap escChar).length < f := by
        simp only [List.length_append] at hlen
        omega
      have hih := ih f rest hf
      clear ih
      generalize hQ : cs.flatMap escChar = Q at hih ⊢
      unfold escChar
      split_ifs with h1 h2 h3 h4 h5 h6 h7 h8
      · subst h1
        simp only [List.cons_append, List.nil_append]
        rw [psb_backslash, pe_quote, hih]
        rfl
      · subst h2
        simp only [List.cons_append, List.nil_append]
        rw [psb_backslash, pe_bs, hih]
        rfl
      · subst h3
        simp only [List.cons_append, List.nil_append]
        rw [psb_backslash, pe_b, hih]
        rfl
      · subst h4
        simp only [List.cons_append, List.nil_append]
        rw [psb_backslash, pe_f, hih]
        rfl
      · subst h5
        simp only [List.cons_append, List.nil_append]
        rw [psb_backslash, pe_n, hih]
        rfl
      · subst h6
        simp only [List.cons_append, List.nil_append]
        rw [psb_backslash, pe_r, hih]
        rfl
      · subst h7
        simp only [List.cons_append, List.nil_append]
        rw [psb_backslash, pe_t, hih]
        rfl
      · -- the `\u00XX` escape for an unnamed control character
        have hhi : c.toNat / 16 < 16 := by omega
        have hlo : c.toNat % 16 < 16 := by omega
        simp only [List.cons_append, List.nil_append]
        rw [psb_backslash, parseEsc_u f '0' '0' (hexChar (c.toNat / 16))
          (hexChar (c.toNat % 16)) _ (by decide) (by decide) (hexVal_hexChar _ hhi)
          (hexVal_hexChar _ hlo)
          (show ((0 * 16 + 0) * 16 + c.toNat / 16) * 16 + c.toNat % 16 = c.toNat by
            have := Nat.div_add_mod c.toNat 16
            omega)
          (by omega)]
        rw [hih, Char.ofNat_toNat]
        rfl
      · refine absurd hesc ?_
        unfold escChar
        rw [if_neg h1, if_neg h2, if_neg h3, if_neg h4, if_neg h5, if_neg h6, if_neg h7,
          if_neg h8]
        simp
    · -- the raw branch: `escChar c = [c]`
      have hraw : escChar c = [c] := escChar_raw_of_short c (by omega)
      obtain ⟨hc1, hc2, hc3⟩ := escChar_raw_inv c hraw
      rw [hraw] at hlen ⊢
      obtain ⟨f, rfl⟩ : ∃ f, fuel = f + 1 := by
        refine ⟨fuel - 1, ?_⟩
        simp only [List.length_append, List.length_singleton] at hlen
        omega
      have hf : (cs.flatMap escChar).length < f := by
        simp only [List.length_append, List.length_singleton] at hlen
        omega
      rw [List.singleton_append, psb_raw f c _ hc1 hc2 hc3, ih f rest hf]
      rfl

/-! ### Round trip, step 3: object reconstruction and head characters -/

theorem strMk_data (s : String) : String.mk s.data = s := rfl

theorem insertKV_append {acc : List (String × JVal)} {k : String} (v : JVal)
    (h : ¬k ∈ acc.map Prod.fst) : insertKV acc k v = acc ++ [(k, v)] := by
  induction acc with
  | nil => rfl
  | cons kv acc ih =>
    obtain ⟨k', v'⟩ := kv
    simp only [List.map_cons, List.mem_cons] at h
    push_neg at h
    simp only [insertKV, if_neg (Ne.symm h.1)]
    rw [ih h.2]
    rfl

theorem keysNodup_cons {k : String} {ks : List String} :
    keysNodup (k :: ks) = true ↔ ¬k ∈ ks ∧ keysNodup ks = true := by
  simp [keysNodup, List.contains]

theorem buildObj_aux (ms : List (String × JVal)) : ∀ acc : List (String × JVal),
    keysNodup (ms.map Prod.fst) = true →
    (∀ x ∈ ms.map Prod.fst, ¬x ∈ acc.map Prod.fst) →
    ms.foldl (fun acc kv => insertKV acc kv.1 kv.2) acc = acc ++ ms := by
  induction ms with
  | nil => intro acc _ _; simp
  | cons kv ms ih =>
    intro acc hnd hdisj
    obtain ⟨k, v⟩ := kv
    simp only [List.map_cons] at hnd hdisj
    rw [keysNodup_cons] at hnd
    simp only [List.foldl_cons]
    rw [insertKV_append v (hdisj k (List.mem_cons_self k _))]
    rw [ih (acc ++ [(k, v)]) hnd.2 ?_]
    · simp
    · intro x hx
      simp only [List.map_append, List.mem_append]
      push_neg
      refine ⟨hdisj x (List.mem_cons_of_mem _ hx), ?_⟩
      simp only [List.map_singleton, List.mem_singleton]
      intro hxk
      exact absurd (hxk ▸ hx) hnd.1

theorem buildObj_eq_self {ms : List (String × JVal)}
    (h : keysNodup (ms.map Prod.fst) = true) : buildObj ms = ms := by
  rw [buildObj, buildObj_aux ms [] h (by simp)]
  rfl

theorem skipWs_cons_not {c : Char} (h : isWsChar c = false) (l : List Char) :
    skipWs (c :: l) = c :: l := by
  simp [skipWs, h]

theorem band_split {a b : Bool} (h : (a && b) = true) : a = true ∧ b = true := by
  simp at h
  exact h

theorem ndh_cons {c : Char} (h : digitVal c = none) (r : List Char) :
    noDigitHead (c :: r) := h

theorem char_facts_of_digit {c : Char} (h : 48 ≤ c.toNat ∧ c.toNat ≤ 57) :
    ¬c = 'n' ∧ ¬c = 't' ∧ ¬c = 'f' ∧ ¬c = '"' ∧ ¬c = '[' ∧ ¬c = lbraceChar ∧
      isWsChar c = false ∧ ¬c = ']' := by
  refine ⟨?_, ?_, ?_, ?_, ?_, ?_, ?_, ?_⟩ <;>
    first
    | (intro hc; subst hc; revert h; decide)
    | (simp only [isWsChar, Bool.or_eq_false_iff, decide_eq_false_iff_not]
       refine ⟨⟨⟨?_, ?_⟩, ?_⟩, ?_⟩ <;> (intro hc; subst hc; revert h; decide))

theorem digitVal_bounds {c : Char} {d : Nat} (h : digitVal c = some d) :
    48 ≤ c.toNat ∧ c.toNat ≤ 57 := by
  unfold digitVal at h
  split_ifs at h with hb
  exact hb

/-- The first character of a serialized value: it exists, is not
whitespace, and is not a closing bracket. -/
theorem serChars_head (v : JVal) :
    ∃ c cs0, serChars v = c :: cs0 ∧ isWsChar c = false ∧ ¬c = ']' := by
  cases v with
  | null => exact ⟨'n', _, rfl, by decide, by decide⟩
  | bool b => cases b with
    | true => exact ⟨'t', _, rfl, by decide, by decide⟩
    | false => exact ⟨'f', _, rfl, by decide, by decide⟩
  | num i =>
    cases i with
    | ofNat n =>
      obtain ⟨c, cs, hc, d, hd10, hcd⟩ := natCharsAux_head (n + 1) n (by omega)
      have hb : 48 ≤ c.toNat ∧ c.toNat ≤ 57 := by
        subst hcd
        rw [digitChar_toNat hd10]
        omega
      obtain ⟨_, _, _, _, _, _, hws, hrb⟩ := char_facts_of_digit hb
      exact ⟨c, cs, hc, hws, hrb⟩
    | negSucc m => exact ⟨'-', _, rfl, by decide, by decide⟩
  | str s => exact ⟨'"', _, rfl, by decide, by decide⟩
  | arr es => exact ⟨'[', _, rfl, by decide, by decide⟩
  | obj ms => exact ⟨lbraceChar, _, rfl, by decide, by decide⟩

/-! ### Round trip, step 4: one-step reduction lemmas for the parser -/

theorem pv_null (f : Nat) (r : List Char) :
    parseV (f + 1) ('n' :: 'u' :: 'l' :: 'l' :: r) = some (.null, r) := rfl

theorem pv_true (f : Nat) (r : List Char) :
    parseV (f + 1) ('t' :: 'r' :: 'u' :: 'e' :: r) = some (.bool true, r) := rfl

theorem pv_false (f : Nat) (r : List Char) :
    parseV (f + 1) ('f' :: 'a' :: 'l' :: 's' :: 'e' :: r) = some (.bool false, r) := rfl

theorem pv_str (f : Nat) (cs' : List Char) :
    parseV (f + 1) ('"' :: cs') =
      (parseStrBody (cs'.length + 1) cs').map (fun p => (.str (String.mk p.1), p.2)) := rfl

theorem pv_arr (f : Nat) {cs' : List Char} {c2 : Char} {r : List Char}
    (h : skipWs cs' = c2 :: r) :
    parseV (f + 1) ('[' :: cs') =
      if c2 = ']' then some (.arr [], r)
      else (parseElems f (c2 :: r)).map (fun p => (.arr p.1, p.2)) := by
  rw [parseV, skipWs_cons_not (by decide)]
  simp [h]

theorem pv_obj (f : Nat) {cs' : List Char} {c2 : Char} {r : List Char}
    (h : skipWs cs' = c2 :: r) :
    parseV (f + 1) (lbraceChar :: cs') =
      if c2 = rbraceChar then some (.obj [], r)
      else (parseMembers f (c2 :: r)).map (fun p => (.obj (buildObj p.1), p.2)) := by
  rw [parseV, skipWs_cons_not (by decide)]
  simp [h, show ¬lbraceChar = 'n' from by decide, show ¬lbraceChar = 't' from by decide,
    show ¬lbraceChar = 'f' from by decide, show ¬lbraceChar = '"' from by decide,
    show ¬lbraceChar = '[' from by decide]

theorem pv_other (f : Nat) {c : Char} (cs' : List Char) (h1 : ¬c = 'n') (h2 : ¬c = 't')
    (h3 : ¬c = 'f') (h4 : ¬c = '"') (h5 : ¬c = '[') (h6 : ¬c = lbraceChar)
    (hws : isWsChar c = false) :
    parseV (f + 1) (c :: cs') = (parseNum (c :: cs')).map (fun p => (.num p.1, p.2)) := by
  rw [parseV, skipWs_cons_not hws]
  simp [h1, h2, h3, h4, h5, h6]

theorem pel_last (f : Nat) {cs : List Char} {v : JVal} {r r' : List Char}
    (hv : parseV f cs = some (v, r)) (hsw : skipWs r = ']' :: r') :
    parseElems (f + 1) cs = some ([v], r') := by
  rw [parseElems]
  simp [hv, hsw]

theorem pel_comma (f : Nat) {cs : List Char} {v : JVal} {r r' r'' : List Char}
    {es : List JVal} (hv : parseV f cs = some (v, r)) (hsw : skipWs r = ',' :: r')
    (hrec : parseElems f r' = some (es, r'')) :
    parseElems (f + 1) cs = some (v :: es, r'') := by
  rw [parseElems]
  simp [hv, hsw, hrec]

theorem pm_last (f : Nat) {cs cs₁ : List Char} {k : List Char} {r r' r'' r₃ : List Char}
    {v : JVal} (h0 : skipWs cs = '"' :: cs₁)
    (hk : parseStrBody (cs₁.length + 1) cs₁ = some (k, r)) (h1 : skipWs r = ':' :: r')
    (hv : parseV f r' = some (v, r'')) (h2 : skipWs r'' = rbraceChar :: r₃) :
    parseMembers (f + 1) cs = some ([(String.mk k, v)], r₃) := by
  rw [parseMembers, h0]
  simp [hk, h1, hv, h2, show ¬rbraceChar = ',' from by decide]

theorem pm_comma (f : Nat) {cs cs₁ : List Char} {k : List Char} {r r' r'' r₃ r₄ : List Char}
    {v : JVal} {ms : List (String × JVal)} (h0 : skipWs cs = '"' :: cs₁)
    (hk : parseStrBody (cs₁.length + 1) cs₁ = some (k, r)) (h1 : skipWs r = ':' :: r')
    (hv : parseV f r' = some (v, r'')) (h2 : skipWs r'' = ',' :: r₃)
    (hrec : parseMembers f r₃ = some (ms, r₄)) :
    parseMembers (f + 1) cs = some ((String.mk k, v) :: ms, r₄) := by
  rw [parseMembers, h0]
  simp [hk, h1, hv, h2, hrec]

/-! ### Round trip, step 5: parsing a serialized well-formed value
recovers the value -/

mutual

theorem serParse_val (v : JVal) (hwf : jwf v = true) (fuel : Nat) (rest : List Char)
    (hlen : (serChars v).length < fuel) (hnd : noDigitHead rest) :
    parseV fuel (serChars v ++ rest) = some (v, rest) := by
  obtain ⟨f, rfl⟩ : ∃ f, fuel = f + 1 := ⟨fuel - 1, by omega⟩
  cases v with
  | null => exact pv_null f rest
  | bool b =>
    cases b with
    | true => exact pv_true f rest
    | false => exact pv_false f rest
  | num i =>
    rcases i with n | m
    · obtain ⟨c, cs, hc, d, hd10, hcd⟩ := natCharsAux_head (n + 1) n (by omega)
      have hb : 48 ≤ c.toNat ∧ c.toNat ≤ 57 := by
        subst hcd
        rw [digitChar_toNat hd10]
        omega
      obtain ⟨g1, g2, g3, g4, g5, g6, gws, _⟩ := char_facts_of_digit hb
      have hser : serChars (.num (Int.ofNat n)) = c :: cs := by
        show natChars n = c :: cs
        unfold natChars
        exact hc
      rw [hser, List.cons_append, pv_other f _ g1 g2 g3 g4 g5 g6 gws, ← List.cons_append,
        ← hser, show serChars (.num (Int.ofNat n)) = intChars (Int.ofNat n) from rfl,
        parseNum_intChars _ hnd]
      rfl
    · have hser : serChars (.num (Int.negSucc m)) = '-' :: natChars (m + 1) := rfl
      rw [hser, List.cons_append, pv_other f _ (by decide) (by decide) (by decide)
        (by decide) (by decide) (by decide) (by decide), ← List.cons_append, ← hser,
        show serChars (.num (Int.negSucc m)) = intChars (Int.negSucc m) from rfl,
        parseNum_intChars _ hnd]
      rfl
  | str s =>
    have hser : serChars (.str s) = '"' :: (s.data.flatMap escChar ++ ['"']) := rfl
    rw [hser, List.cons_append, pv_str, List.append_assoc]
    simp only [List.singleton_append]
    rw [parseStrBody_escape _ _ _ (by simp only [List.length_append, List.length_cons]; omega)]
    simp [strMk_data]
  | arr es =>
    cases es with
    | nil =>
      have hser : serChars (.arr []) = '[' :: [']'] := rfl
      rw [hser, List.cons_append, List.singleton_append,
        pv_arr f (skipWs_cons_not (by decide) rest)]
      simp
    | cons e es' =>
      obtain ⟨hc0, tl, hce, hws0, hrb0⟩ := serChars_head e
      have hhd : ∃ tl2, serElems (e :: es') = hc0 :: tl2 := by
        cases es' with
        | nil => exact ⟨tl, hce⟩
        | cons e2 es'' =>
          refine ⟨tl ++ ',' :: serElems (e2 :: es''), ?_⟩
          show serChars e ++ ',' :: serElems (e2 :: es'') = _
          rw [hce]
          rfl
      obtain ⟨tl2, htl2⟩ := hhd
      have hser : serChars (.arr (e :: es')) = '[' :: (serElems (e :: es') ++ [']']) := rfl
      rw [hser, List.cons_append, List.append_assoc]
      simp only [List.singleton_append]
      have hsw : skipWs (serElems (e :: es') ++ ']' :: rest) =
          hc0 :: (tl2 ++ ']' :: rest) := by
        rw [htl2, List.cons_append]
        exact skipWs_cons_not hws0 _
      rw [pv_arr f hsw, if_neg hrb0, ← List.cons_append, ← htl2,
        serParse_elems (e :: es') (by simp) hwf f rest
          (by rw [hser] at hlen; simp only [List.length_cons, List.length_append,
            List.length_singleton] at hlen ⊢; omega)]
      rfl
  | obj ms =>
    cases ms with
    | nil =>
      have hser : serChars (.obj []) = lbraceChar :: [rbraceChar] := rfl
      rw [hser, List.cons_append, List.singleton_append,
        pv_obj f (skipWs_cons_not (by decide) rest)]
      simp
    | cons kv ms' =>
      obtain ⟨k, v⟩ := kv
      have hhd : ∃ tl2, serMembers ((k, v) :: ms') = '"' :: tl2 := by
        cases ms' with
        | nil =>
          refine ⟨(k.data.flatMap escChar ++ ['"']) ++ ':' :: serChars v, ?_⟩
          show strChars k ++ ':' :: serChars v = _
          rw [strChars]
          simp
        | cons kv2 ms'' =>
          refine ⟨(k.data.flatMap escChar ++ ['"']) ++ ':' :: serChars v ++
            ',' :: serMembers (kv2 :: ms''), ?_⟩
          show strChars k ++ ':' :: serChars v ++ ',' :: serMembers (kv2 :: ms'') = _
          rw [strChars, List.cons_append, List.cons_append]
          simp [List.append_assoc]
      obtain ⟨tl2, htl2⟩ := hhd
      have hser : serChars (.obj ((k, v) :: ms')) =
          lbraceChar :: (serMembers ((k, v) :: ms') ++ [rbraceChar]) := rfl
      rw [hser, List.cons_append, List.append_assoc]
      simp only [List.singleton_append]
      have hsw : skipWs (serMembers ((k, v) :: ms') ++ rbraceChar :: rest) =
          '"' :: (tl2 ++ rbraceChar :: rest) := by
        rw [htl2, List.cons_append]
        exact skipWs_cons_not (by decide) _
      rw [pv_obj f hsw, if_neg (by decide), ← List.cons_append, ← htl2,
        serParse_members ((k, v) :: ms') (by simp)
          (band_split hwf).2 f rest
          (by rw [hser] at hlen; simp only [List.length_cons, List.length_append,
            List.length_singleton] at hlen ⊢; omega)]
      have hbo := buildObj_eq_self (band_split hwf).1
      simp [hbo]

theorem serParse_elems (es : List JVal) (hne : es ≠ []) (hwf : jwfElems es = true)
    (fuel : Nat) (rest : List Char) (hlen : (serElems es).length + 1 < fuel) :
    parseElems fuel (serElems es ++ ']' :: rest) = some (es, rest) := by
  obtain ⟨f, rfl⟩ : ∃ f, fuel = f + 1 := ⟨fuel - 1, by omega⟩
  cases es with
  | nil => exact absurd rfl hne
  | cons e es' =>
    have hwfe : jwf e = true := (band_split hwf).1
    have hwfes : jwfElems es' = true := (band_split hwf).2
    cases es' with
    | nil =>
      have hse : serElems [e] = serChars e := rfl
      rw [hse] at hlen ⊢
      exact pel_last f
        (serParse_val e hwfe f (']' :: rest) (by omega) (ndh_cons (by decide) _))
        (skipWs_cons_not (by decide) rest)
    | cons e2 es'' =>
      have hse : serElems (e :: e2 :: es'') = serChars e ++ ',' :: serElems (e2 :: es'') :=
        rfl
      rw [hse] at hlen ⊢
      rw [List.append_assoc, List.cons_append]
      have he1 : 1 ≤ (serChars e).length := by
        obtain ⟨c0, t0, h0, _, _⟩ := serChars_head e
        rw [h0]
        simp
      exact pel_comma f
        (serParse_val e hwfe f (',' :: (serElems (e2 :: es'') ++ ']' :: rest))
          (by simp only [List.length_append, List.length_cons] at hlen; omega) (ndh_cons (by decide) _))
        (skipWs_cons_not (by decide) _)
        (serParse_elems (e2 :: es'') (by simp) hwfes f rest
          (by simp only [List.length_append, List.length_cons] at hlen; omega))

theorem serParse_members (ms : List (String × JVal)) (hne : ms ≠ [])
    (hwf : jwfMembers ms = true) (fuel : Nat) (rest : List Char)
    (hlen : (serMembers ms).length + 1 < fuel) :
    parseMembers fuel (serMembers ms ++ rbraceChar :: rest) = some (ms, rest) := by
  obtain ⟨f, rfl⟩ : ∃ f, fuel = f + 1 := ⟨fuel - 1, by omega⟩
  cases ms with
  | nil => exact absurd rfl hne
  | cons kv ms' =>
    obtain ⟨k, v⟩ := kv
    have hwfv : jwf v = true := (band_split hwf).1
    have hwfms : jwfMembers ms' = true := (band_split hwf).2
    cases ms' with
    | nil =>
      have hse : serMembers [(k, v)] =
          '"' :: ((k.data.flatMap escChar ++ ['"']) ++ ':' :: serChars v) := by
        show strChars k ++ ':' :: serChars v = _
        rw [strChars]
        simp
      rw [hse] at hlen ⊢
      rw [List.cons_append, List.append_assoc, List.append_assoc]
      simp only [List.singleton_append, List.cons_append]
      have hv := serParse_val v hwfv f (rbraceChar :: rest)
        (by simp only [List.length_cons, List.length_append] at hlen; omega) (ndh_cons (by decide) _)
      have hlast := pm_last f (skipWs_cons_not (by decide) _)
        (parseStrBody_escape k.data _ (':' :: (serChars v ++ rbraceChar :: rest))
          (by simp only [List.length_append, List.length_cons]; omega))
        (skipWs_cons_not (by decide) _) hv (skipWs_cons_not (by decide) rest)
      rw [strMk_data] at hlast
      exact hlast
    | cons kv2 ms'' =>
      have hse : serMembers ((k, v) :: kv2 :: ms'') =
          '"' :: ((k.data.flatMap escChar ++ ['"']) ++
            ':' :: (serChars v ++ ',' :: serMembers (kv2 :: ms''))) := by
        show strChars k ++ ':' :: serChars v ++ ',' :: serMembers (kv2 :: ms'') = _
        rw [strChars, List.cons_append]
        simp [List.append_assoc]
      rw [hse] at hlen ⊢
      rw [List.cons_append, List.append_assoc, List.append_assoc]
      simp only [List.singleton_append, List.cons_append, List.append_assoc]
      have hv := serParse_val v hwfv f (',' :: (serMembers (kv2 :: ms'') ++ rbraceChar :: rest))
        (by simp only [List.length_cons, List.length_append] at hlen; omega) (ndh_cons (by decide) _)
      have hrec := serParse_members (kv2 :: ms'') (by simp) hwfms f rest
        (by simp only [List.length_cons, List.length_append] at hlen; omega)
      have hstep := pm_comma f (skipWs_cons_not (by decide) _)
        (parseStrBody_escape k.data _
          (':' :: (serChars v ++ ',' :: (serMembers (kv2 :: ms'') ++ rbraceChar :: rest)))
          (by simp only [List.length_append, List.length_cons]; omega))
        (skipWs_cons_not (by decide) _) hv (skipWs_cons_not (by decide) _) hrec
      rw [strMk_data] at hstep
      exact hstep

end

theorem strData_mk (l : List Char) : (String.mk l).data = l := rfl

/-- Parsing the canonical serialization of a well-formed value recovers
the value. -/
theorem parseJson_serialize {v : JVal} (hwf : jwf v = true) :
    parseJson (serialize v) = some v := by
  have hp := serParse_val v hwf ((serChars v).length + 1) [] (by omega) trivial
  rw [List.append_nil] at hp
  unfold parseJson serialize
  rw [strData_mk, hp]
  simp [skipWs]

/-! ### Round trip, step 6: parser output is well-formed -/

theorem mem_keys_insertKV {acc : List (String × JVal)} {k x : String} {v : JVal}
    (h : x ∈ (insertKV acc k v).map Prod.fst) : x ∈ acc.map Prod.fst ∨ x = k := by
  induction acc with
  | nil => exact Or.inr (by simpa [insertKV] using h)
  | cons kv acc ih =>
    obtain ⟨k', v'⟩ := kv
    by_cases hk : k' = k
    · rw [insertKV, if_pos hk] at h
      simp only [List.map_cons] at h ⊢
      exact Or.inl h
    · rw [insertKV, if_neg hk] at h
      simp only [List.map_cons, List.mem_cons] at h ⊢
      rcases h with h | h
      · exact Or.inl (Or.inl h)
      · rcases ih h with h' | h'
        · exact Or.inl (Or.inr h')
        · exact Or.inr h'

theorem insertKV_keysNodup {acc : List (String × JVal)} {k : String} {v : JVal}
    (h : keysNodup (acc.map Prod.fst) = true) :
    keysNodup ((insertKV acc k v).map Prod.fst) = true := by
  induction acc with
  | nil => simp [insertKV, keysNodup]
  | cons kv acc ih =>
    obtain ⟨k', v'⟩ := kv
    simp only [List.map_cons] at h
    rw [keysNodup_cons] at h
    by_cases hk : k' = k
    · rw [insertKV, if_pos hk]
      simp only [List.map_cons]
      rw [keysNodup_cons]
      exact h
    · rw [insertKV, if_neg hk]
      simp only [List.map_cons]
      rw [keysNodup_cons]
      refine ⟨?_, ih h.2⟩
      intro hmem
      rcases mem_keys_insertKV hmem with h' | h'
      · exact h.1 h'
      · exact hk h'

theorem insertKV_jwfMembers {acc : List (String × JVal)} {k : String} {v : JVal}
    (hacc : jwfMembers acc = true) (hv : jwf v = true) :
    jwfMembers (insertKV acc k v) = true := by
  induction acc with
  | nil => simpa [insertKV, jwfMembers] using hv
  | cons kv acc ih =>
    obtain ⟨k', v'⟩ := kv
    have h1 : jwf v' = true := (band_split hacc).1
    have h2 : jwfMembers acc = true := (band_split hacc).2
    by_cases hk : k' = k
    · rw [insertKV, if_pos hk]
      show (jwf v && jwfMembers acc) = true
      rw [hv, h2]
      rfl
    · rw [insertKV, if_neg hk]
      show (jwf v' && jwfMembers (insertKV acc k v)) = true
      rw [h1, ih h2]
      rfl

theorem buildObj_wf_aux (ms : List (String × JVal)) :
    ∀ acc : List (String × JVal), (∀ kv ∈ ms, jwf kv.2 = true) →
    keysNodup (acc.map Prod.fst) = true → jwfMembers acc = true →
    keysNodup ((ms.foldl (fun acc kv => insertKV acc kv.1 kv.2) acc).map Prod.fst) = true ∧
    jwfMembers (ms.foldl (fun acc kv => insertKV acc kv.1 kv.2) acc) = true := by
  induction ms with
  | nil => intro acc _ h1 h2; exact ⟨h1, h2⟩
  | cons kv ms ih =>
    intro acc hall h1 h2
    obtain ⟨k, v⟩ := kv
    simp only [List.foldl_cons]
    exact ih (insertKV acc k v) (fun x hx => hall x (List.mem_cons_of_mem _ hx))
      (insertKV_keysNodup h1)
      (insertKV_jwfMembers h2 (hall (k, v) (List.mem_cons_self _ _)))

theorem buildObj_wf {ms : List (String × JVal)} (hall : ∀ kv ∈ ms, jwf kv.2 = true) :
    jwf (.obj (buildObj ms)) = true := by
  obtain ⟨h1, h2⟩ := buildObj_wf_aux ms [] hall rfl rfl
  show (keysNodup ((buildObj ms).map Prod.fst) && jwfMembers (buildObj ms)) = true
  unfold buildObj
  rw [h1, h2]
  rfl

mutual

theorem parseV_wf : ∀ (fuel : Nat) (cs : List Char) (v : JVal) (r : List Char),
    parseV fuel cs = some (v, r) → jwf v = true
  | 0, _, _, _, h => by cases h
  | fuel + 1, cs, v, r, h => by
    rw [parseV] at h
    split at h
    · cases h
    · split_ifs at h with h1 h2 h3 h4 h5 h6
      · -- null literal
        split at h
        · simp only [Option.some.injEq, Prod.mk.injEq] at h
          obtain ⟨h', -⟩ := h
          subst h'
          rfl
        · cases h
      · -- true literal
        split at h
        · simp only [Option.some.injEq, Prod.mk.injEq] at h
          obtain ⟨h', -⟩ := h
          subst h'
          rfl
        · cases h
      · -- false literal
        split at h
        · simp only [Option.some.injEq, Prod.mk.injEq] at h
          obtain ⟨h', -⟩ := h
          subst h'
          rfl
        · cases h
      · -- string
        rw [Option.map_eq_some'] at h
        obtain ⟨p, -, heq⟩ := h
        simp only [Prod.mk.injEq] at heq
        obtain ⟨h', -⟩ := heq
        subst h'
        rfl
      · -- array
        split at h
        · cases h
        · split_ifs at h with hb
          · simp only [Option.some.injEq, Prod.mk.injEq] at h
            obtain ⟨h', -⟩ := h
            subst h'
            rfl
          · rw [Option.map_eq_some'] at h
            obtain ⟨p, hpe, heq⟩ := h
            simp only [Prod.mk.injEq] at heq
            obtain ⟨h', -⟩ := heq
            subst h'
            exact parseElems_wf fuel _ _ _ hpe
      · -- object
        split at h
        · cases h
        · split_ifs at h with hb
          · simp only [Option.some.injEq, Prod.mk.injEq] at h
            obtain ⟨h', -⟩ := h
            subst h'
            rfl
          · rw [Option.map_eq_some'] at h
            obtain ⟨p, hpm, heq⟩ := h
            simp only [Prod.mk.injEq] at heq
            obtain ⟨h', -⟩ := heq
            subst h'
            exact buildObj_wf (parseMembers_wf fuel _ _ _ hpm)
      · -- number
        rw [Option.map_eq_some'] at h
        obtain ⟨p, -, heq⟩ := h
        simp only [Prod.mk.injEq] at heq
        obtain ⟨h', -⟩ := heq
        subst h'
        rfl

theorem parseElems_wf : ∀ (fuel : Nat) (cs : List Char) (es : List JVal) (r : List Char),
    parseElems fuel cs = some (es, r) → jwfElems es = true
  | 0, _, _, _, h => by cases h
  | fuel + 1, cs, es, r, h => by
    rw [parseElems] at h
    split at h
    · cases h
    · rename_i v r0 heqv
      split at h
      · cases h
      · split_ifs at h with hc hc2
        · split at h
          · cases h
          · rename_i es0 r2 heq2
            simp only [Option.some.injEq, Prod.mk.injEq] at h
            obtain ⟨h', -⟩ := h
            subst h'
            show (jwf v && jwfElems es0) = true
            rw [parseV_wf fuel _ _ _ heqv, parseElems_wf fuel _ _ _ heq2]
            rfl
        · simp only [Option.some.injEq, Prod.mk.injEq] at h
          obtain ⟨h', -⟩ := h
          subst h'
          show (jwf v && jwfElems []) = true
          rw [parseV_wf fuel _ _ _ heqv]
          rfl

theorem parseMembers_wf : ∀ (fuel : Nat) (cs : List Char) (ms : List (String × JVal))
    (r : List Char), parseMembers fuel cs = some (ms, r) → ∀ kv ∈ ms, jwf kv.2 = true
  | 0, _, _, _, h => by cases h
  | fuel + 1, cs, ms, r, h => by
    rw [parseMembers] at h
    split at h
    · split at h
      · cases h
      · rename_i k r0 heqk
        split at h
        · rename_i r1 heq1
          split at h
          · cases h
          · rename_i v r2 heqv
            split at h
            · cases h
            · split_ifs at h with hc hc2
              · split at h
                · cases h
                · rename_i ms0 r4 heqm
                  simp only [Option.some.injEq, Prod.mk.injEq] at h
                  obtain ⟨h', -⟩ := h
                  subst h'
                  intro kv hkv
                  rcases List.mem_cons.mp hkv with rfl | hkv'
                  · exact parseV_wf fuel _ _ _ heqv
                  · exact parseMembers_wf fuel _ _ _ heqm kv hkv'
              · simp only [Option.some.injEq, Prod.mk.injEq] at h
                obtain ⟨h', -⟩ := h
                subst h'
                intro kv hkv
                simp only [List.mem_singleton] at hkv
                subst hkv
                exact parseV_wf fuel _ _ _ heqv
        · cases h
    · cases h

end

/-- A successfully parsed line yields a well-formed value. -/
theorem parseJson_wf {l : String} {v : JVal} (h : parseJson l = some v) : jwf v = true := by
  unfold parseJson at h
  split at h
  · rename_i v0 r0 heq
    split_ifs at h
    obtain rfl : v0 = v := by
      simpa using h
    exact parseV_wf _ _ _ _ heq
  · cases h

/-! ### The transform preserves well-formedness and is idempotent -/

theorem jGet_obj {v : JVal} {k : String} {w : JVal} (h : jGet v k = some w) :
    ∃ ms, v = .obj ms ∧ lookupKey ms k = some w := by
  cases v <;> simp [jGet] at h ⊢
  exact h

theorem lookupKey_mem {ms : List (String × JVal)} {k : String} {w : JVal}
    (h : lookupKey ms k = some w) : (k, w) ∈ ms := by
  induction ms with
  | nil => cases h
  | cons kv ms ih =>
    obtain ⟨k', v'⟩ := kv
    by_cases hk : k' = k
    · rw [lookupKey, if_pos hk] at h
      subst hk
      simp only [Option.some.injEq] at h
      subst h
      exact List.mem_cons_self _ _
    · rw [lookupKey, if_neg hk] at h
      exact List.mem_cons_of_mem _ (ih h)

theorem jwfMembers_mem {ms : List (String × JVal)} (h : jwfMembers ms = true)
    {kv : String × JVal} (hm : kv ∈ ms) : jwf kv.2 = true := by
  induction ms with
  | nil => cases hm
  | cons kv' ms ih =>
    obtain ⟨k', v'⟩ := kv'
    rcases List.mem_cons.mp hm with rfl | hm'
    · exact (band_split h).1
    · exact ih (band_split h).2 hm'

theorem jwf_jGet {v : JVal} {k : String} {w : JVal} (hwf : jwf v = true)
    (h : jGet v k = some w) : jwf w = true := by
  obtain ⟨ms, rfl, hlk⟩ := jGet_obj h
  exact jwfMembers_mem (band_split hwf).2 (lookupKey_mem hlk)

theorem map_fst_setKey (ms : List (String × JVal)) (k : String) (x : JVal) :
    (setKey ms k x).map Prod.fst = ms.map Prod.fst := by
  induction ms with
  | nil => rfl
  | cons kv ms ih =>
    obtain ⟨k', v'⟩ := kv
    by_cases hk : k' = k
    · rw [setKey, if_pos hk]
      simp
    · rw [setKey, if_neg hk]
      simp [ih]

theorem jwfMembers_setKey {ms : List (String × JVal)} {k : String} {x : JVal}
    (h : jwfMembers ms = true) (hx : jwf x = true) :
    jwfMembers (setKey ms k x) = true := by
  induction ms with
  | nil => rfl
  | cons kv ms ih =>
    obtain ⟨k', v'⟩ := kv
    by_cases hk : k' = k
    · rw [setKey, if_pos hk]
      show (jwf x && jwfMembers ms) = true
      rw [hx, (band_split h).2]
      rfl
    · rw [setKey, if_neg hk]
      show (jwf v' && jwfMembers (setKey ms k x)) = true
      rw [(band_split h).1, ih (band_split h).2]
      rfl

theorem jwf_jSet {v : JVal} {k : String} {x : JVal} (hwf : jwf v = true)
    (hx : jwf x = true) : jwf (jSet v k x) = true := by
  cases v <;> try exact hwf
  rename_i ms
  show (keysNodup ((setKey ms k x).map Prod.fst) && jwfMembers (setKey ms k x)) = true
  rw [map_fst_setKey, (band_split hwf).1, jwfMembers_setKey (band_split hwf).2 hx]
  rfl

theorem jwfElems_filter {es : List JVal} (h : jwfElems es = true) (p : JVal → Bool) :
    jwfElems (es.filter p) = true := by
  induction es with
  | nil => rfl
  | cons e es ih =>
    rw [List.filter_cons]
    by_cases hp : p e
    · simp only [hp, if_true]
      show (jwf e && jwfElems (es.filter p)) = true
      rw [(band_split h).1, ih (band_split h).2]
      rfl
    · simp only [hp, Bool.false_eq_true, if_false]
      exact ih (band_split h).2

theorem fixValue_wf {v : JVal} (hwf : jwf v = true) : jwf (fixValue v).1 = true := by
  cases h1 : jGet v "message" with
  | none => simpa [fixValue, h1] using hwf
  | some msg =>
    cases h2 : jGet msg "content" with
    | none => simpa [fixValue, h1, h2] using hwf
    | some w =>
      cases w with
      | arr items =>
        have hmsg : jwf msg = true := jwf_jGet hwf h1
        have harr : jwf (.arr items) = true := jwf_jGet hmsg h2
        have hkept : jwf (.arr (items.filter keepItem)) = true :=
          jwfElems_filter harr keepItem
        simp only [fixValue, h1, h2]
        exact jwf_jSet hwf (jwf_jSet hmsg hkept)
      | null => simpa [fixValue, h1, h2] using hwf
      | bool b => simpa [fixValue, h1, h2] using hwf
      | num n => simpa [fixValue, h1, h2] using hwf
      | str s => simpa [fixValue, h1, h2] using hwf
      | obj ms => simpa [fixValue, h1, h2] using hwf

theorem lookupKey_setKey_self {ms : List (String × JVal)} {k : String} {w : JVal}
    (h : lookupKey ms k = some w) (x : JVal) :
    lookupKey (setKey ms k x) k = some x := by
  induction ms with
  | nil => cases h
  | cons kv ms ih =>
    obtain ⟨k', v'⟩ := kv
    by_cases hk : k' = k
    · rw [setKey, if_pos hk, lookupKey, if_pos hk]
    · rw [setKey, if_neg hk, lookupKey, if_neg hk]
      rw [lookupKey, if_neg hk] at h
      exact ih h

theorem setKey_self {ms : List (String × JVal)} {k : String} {x : JVal}
    (h : lookupKey ms k = some x) : setKey ms k x = ms := by
  induction ms with
  | nil => rfl
  | cons kv ms ih =>
    obtain ⟨k', v'⟩ := kv
    by_cases hk : k' = k
    · rw [lookupKey, if_pos hk] at h
      simp only [Option.some.injEq] at h
      rw [setKey, if_pos hk, h]
    · rw [lookupKey, if_neg hk] at h
      rw [setKey, if_neg hk, ih h]

theorem jGet_jSet_self {v : JVal} {k : String} {w : JVal} (h : jGet v k = some w)
    (x : JVal) : jGet (jSet v k x) k = some x := by
  obtain ⟨ms, rfl, hlk⟩ := jGet_obj h
  show lookupKey (setKey ms k x) k = some x
  exact lookupKey_setKey_self hlk x

theorem jSet_jGet_self {v : JVal} {k : String} {x : JVal}
    (h : jGet v k = some x) : jSet v k x = v := by
  obtain ⟨ms, rfl, hlk⟩ := jGet_obj h
  show JVal.obj (setKey ms k x) = JVal.obj ms
  rw [setKey_self hlk]

theorem filter_keepItem_idem (items : List JVal) :
    (items.filter keepItem).filter keepItem = items.filter keepItem := by
  rw [List.filter_filter]
  exact List.filter_congr (fun x _ => by cases keepItem x <;> rfl)

/-- The per-value transform is idempotent, and a second application
removes nothing. -/
theorem fixValue_idem (v : JVal) : fixValue ((fixValue v).1) = ((fixValue v).1, 0) := by
  cases h1 : jGet v "message" with
  | none => simp [fixValue, h1]
  | some msg =>
    cases h2 : jGet msg "content" with
    | none => simp [fixValue, h1, h2]
    | some w =>
      cases w with
      | arr items =>
        have hres : (fixValue v).1 =
            jSet v "message" (jSet msg "content" (.arr (items.filter keepItem))) := by
          simp [fixValue, h1, h2]
        have hg1 : jGet ((fixValue v).1) "message" =
            some (jSet msg "content" (.arr (items.filter keepItem))) := by
          rw [hres]
          exact jGet_jSet_self h1 _
        have hg2 : jGet (jSet msg "content" (.arr (items.filter keepItem))) "content" =
            some (.arr (items.filter keepItem)) := jGet_jSet_self h2 _
        generalize hw : (fixValue v).1 = w at hg1
        simp only [fixValue, hg1, hg2, filter_keepItem_idem, Nat.sub_self]
        rw [jSet_jGet_self hg2, jSet_jGet_self hg1]
      | null => simp [fixValue, h1, h2]
      | bool b => simp [fixValue, h1, h2]
      | num n => simp [fixValue, h1, h2]
      | str s => simp [fixValue, h1, h2]
      | obj ms => simp [fixValue, h1, h2]

/-! ### The serializer emits no line feed and no carriage return -/

theorem hexChar_toNat {d : Nat} (h : d < 16) :
    (hexChar d).toNat = if d < 10 then 48 + d else 87 + d := by
  unfold hexChar
  by_cases h10 : d < 10
  · rw [if_pos h10]
    exact charOfNat_toNat (by omega)
  · rw [if_neg h10]
    exact charOfNat_toNat (by omega)

theorem escChar_mem {c x : Char} (hx : x ∈ escChar c) : x.toNat ≠ 10 ∧ x.toNat ≠ 13 := by
  unfold escChar at hx
  split_ifs at hx with h1 h2 h3 h4 h5 h6 h7 h8
  · simp at hx
    rcases hx with rfl | rfl <;> exact ⟨by decide, by decide⟩
  · simp at hx
    rcases hx with rfl | rfl <;> exact ⟨by decide, by decide⟩
  · simp at hx
    rcases hx with rfl | rfl <;> exact ⟨by decide, by decide⟩
  · simp at hx
    rcases hx with rfl | rfl <;> exact ⟨by decide, by decide⟩
  · simp at hx
    rcases hx with rfl | rfl <;> exact ⟨by decide, by decide⟩
  · simp at hx
    rcases hx with rfl | rfl <;> exact ⟨by decide, by decide⟩
  · simp at hx
    rcases hx with rfl | rfl <;> exact ⟨by decide, by decide⟩
  · have hhi : c.toNat / 16 < 16 := by omega
    have hlo : c.toNat % 16 < 16 := by omega
    simp at hx
    rcases hx with rfl | rfl | rfl | rfl | rfl <;>
      first
      | exact ⟨by decide, by decide⟩
      | (constructor <;> (rw [hexChar_toNat (by omega)]; split_ifs <;> omega))
  · simp at hx
    subst hx
    omega

theorem natCharsAux_mem {fuel : Nat} : ∀ {n : Nat}, ∀ x ∈ natCharsAux fuel n,
    ∃ d, d < 10 ∧ x = digitChar d := by
  induction fuel with
  | zero => intro n x hx; cases hx
  | succ fuel ih =>
    intro n x hx
    by_cases h10 : n < 10
    · rw [natCharsAux, if_pos h10] at hx
      simp at hx
      exact ⟨n, h10, hx⟩
    · rw [natCharsAux, if_neg h10] at hx
      rcases List.mem_append.mp hx with hx' | hx'
      · exact ih x hx'
      · simp at hx'
        exact ⟨n % 10, Nat.mod_lt _ (by omega), hx'⟩

theorem strChars_mem_ok {s : String} {x : Char} (hx : x ∈ strChars s) :
    x.toNat ≠ 10 ∧ x.toNat ≠ 13 := by
  rw [strChars] at hx
  rcases List.mem_cons.mp hx with rfl | hx'
  · exact ⟨by decide, by decide⟩
  · rcases List.mem_append.mp hx' with hx'' | hx''
    · obtain ⟨c, -, hcx⟩ := List.mem_flatMap.mp hx''
      exact escChar_mem hcx
    · simp at hx''
      subst hx''
      exact ⟨by decide, by decide⟩

theorem intChars_mem_ok {i : Int} {x : Char} (hx : x ∈ intChars i) :
    x.toNat ≠ 10 ∧ x.toNat ≠ 13 := by
  have hdig : ∀ d, d < 10 → (digitChar d).toNat ≠ 10 ∧ (digitChar d).toNat ≠ 13 := by
    intro d hd
    rw [digitChar_toNat hd]
    omega
  cases i with
  | ofNat n =>
    obtain ⟨d, hd, rfl⟩ := natCharsAux_mem x hx
    exact hdig d hd
  | negSucc m =>
    rcases List.mem_cons.mp hx with rfl | hx'
    · exact ⟨by decide, by decide⟩
    · obtain ⟨d, hd, rfl⟩ := natCharsAux_mem x hx'
      exact hdig d hd

mutual

theorem serChars_mem_ok : ∀ (v : JVal), ∀ x ∈ serChars v, x.toNat ≠ 10 ∧ x.toNat ≠ 13
  | .null, x, hx => by
    simp [serChars] at hx
    rcases hx with rfl | rfl | rfl <;> exact ⟨by decide, by decide⟩
  | .bool true, x, hx => by
    simp [serChars] at hx
    rcases hx with rfl | rfl | rfl | rfl <;> exact ⟨by decide, by decide⟩
  | .bool false, x, hx => by
    simp [serChars] at hx
    rcases hx with rfl | rfl | rfl | rfl | rfl <;> exact ⟨by decide, by decide⟩
  | .num i, x, hx => intChars_mem_ok hx
  | .str s, x, hx => strChars_mem_ok hx
  | .arr es, x, hx => by
    have hser : serChars (.arr es) = '[' :: (serElems es ++ [']']) := rfl
    rw [hser] at hx
    rcases List.mem_cons.mp hx with rfl | hx'
    · exact ⟨by decide, by decide⟩
    · rcases List.mem_append.mp hx' with hx'' | hx''
      · exact serElems_mem_ok es x hx''
      · simp at hx''
        subst hx''
        exact ⟨by decide, by decide⟩
  | .obj ms, x, hx => by
    have hser : serChars (.obj ms) = lbraceChar :: (serMembers ms ++ [rbraceChar]) := rfl
    rw [hser] at hx
    rcases List.mem_cons.mp hx with rfl | hx'
    · exact ⟨by decide, by decide⟩
    · rcases List.mem_append.mp hx' with hx'' | hx''
      · exact serMembers_mem_ok ms x hx''
      · simp at hx''
        subst hx''
        exact ⟨by decide, by decide⟩

theorem serElems_mem_ok : ∀ (es : List JVal), ∀ x ∈ serElems es,
    x.toNat ≠ 10 ∧ x.toNat ≠ 13
  | [], x, hx => by cases hx
  | [e], x, hx => serChars_mem_ok e x hx
  | e :: e2 :: es, x, hx => by
    have hser : serElems (e :: e2 :: es) = serChars e ++ ',' :: serElems (e2 :: es) := rfl
    rw [hser] at hx
    rcases List.mem_append.mp hx with hx' | hx'
    · exact serChars_mem_ok e x hx'
    · rcases List.mem_cons.mp hx' with rfl | hx''
      · exact ⟨by decide, by decide⟩
      · exact serElems_mem_ok (e2 :: es) x hx''

theorem serMembers_mem_ok : ∀ (ms : List (String × JVal)), ∀ x ∈ serMembers ms,
    x.toNat ≠ 10 ∧ x.toNat ≠ 13
  | [], x, hx => by cases hx
  | [(k, v)], x, hx => by
    have hser : serMembers [(k, v)] = strChars k ++ ':' :: serChars v := rfl
    rw [hser] at hx
    rcases List.mem_append.mp hx with hx' | hx'
    · exact strChars_mem_ok hx'
    · rcases List.mem_cons.mp hx' with rfl | hx''
      · exact ⟨by decide, by decide⟩
      · exact serChars_mem_ok v x hx''
  | (k, v) :: m2 :: ms, x, hx => by
    have hser : serMembers ((k, v) :: m2 :: ms) =
        strChars k ++ ':' :: serChars v ++ ',' :: serMembers (m2 :: ms) := rfl
    rw [hser] at hx
    rcases List.mem_append.mp hx with hx' | hx'
    · rcases List.mem_append.mp hx' with hx'' | hx''
      · exact strChars_mem_ok hx''
      · rcases List.mem_cons.mp hx'' with rfl | hx₃
        · exact ⟨by decide, by decide⟩
        · exact serChars_mem_ok v x hx₃
    · rcases List.mem_cons.mp hx' with rfl | hx''
      · exact ⟨by decide, by decide⟩
      · exact serMembers_mem_ok (m2 :: ms) x hx''

end

/-! ### Splitting and joining lines -/

theorem splitNl_ne_nil (cs : List Char) : splitNl cs ≠ [] := by
  cases cs with
  | nil => simp [splitNl]
  | cons c cs =>
    rw [splitNl]
    cases splitNl cs with
    | nil => simp
    | cons h t => by_cases hc : c = '\n' <;> simp [hc]

theorem splitNl_cons_nl (cs : List Char) : splitNl ('\n' :: cs) = [] :: splitNl cs := by
  rw [splitNl]
  cases hs : splitNl cs with
  | nil => exact absurd hs (splitNl_ne_nil cs)
  | cons h t => simp

theorem splitNl_cons_not {c : Char} (hc : ¬c = '\n') {cs : List Char}
    {hd : List Char} {t : List (List Char)} (h : splitNl cs = hd :: t) :
    splitNl (c :: cs) = (c :: hd) :: t := by
  rw [splitNl, h]
  simp [hc]

theorem splitNl_no_nl_self {d : List Char} (hnn : '\n' ∉ d) : splitNl d = [d] := by
  induction d with
  | nil => rfl
  | cons c d ih =>
    simp only [List.mem_cons] at hnn
    push_neg at hnn
    exact splitNl_cons_not (Ne.symm hnn.1) (ih hnn.2)

theorem splitNl_append {d : List Char} (hnn : '\n' ∉ d) {l : List Char}
    {hd : List Char} {t : List (List Char)} (h : splitNl l = hd :: t) :
    splitNl (d ++ l) = (d ++ hd) :: t := by
  induction d with
  | nil => simpa using h
  | cons c d ih =>
    simp only [List.mem_cons] at hnn
    push_neg at hnn
    rw [List.cons_append]
    rw [splitNl_cons_not (Ne.symm hnn.1) (ih hnn.2)]
    rfl

theorem joinLines_splitNl : ∀ ds : List (List Char), ds ≠ [] →
    (∀ d ∈ ds, '\n' ∉ d) → splitNl (joinLinesChars ds) = ds
  | [], hne, _ => absurd rfl hne
  | [d], _, hnn => by
    rw [joinLinesChars]
    exact splitNl_no_nl_self (hnn d (List.mem_singleton_self d))
  | d :: d2 :: ds, _, hnn => by
    rw [joinLinesChars]
    have hrec := joinLines_splitNl (d2 :: ds) (by simp)
      (fun x hx => hnn x (List.mem_cons_of_mem _ hx))
    have hnl : splitNl ('\n' :: joinLinesChars (d2 :: ds)) = [] :: d2 :: ds := by
      rw [splitNl_cons_nl, hrec]
    have := splitNl_append (hnn d (List.mem_cons_self _ _)) hnl
    rw [this, List.append_nil]

theorem mem_splitNl_no_nl : ∀ (cs : List Char), ∀ p ∈ splitNl cs, '\n' ∉ p := by
  intro cs
  induction cs with
  | nil =>
    intro p hp
    simp only [splitNl] at hp
    simp at hp
    simp [hp]
  | cons c cs ih =>
    intro p hp
    cases hs : splitNl cs with
    | nil => exact absurd hs (splitNl_ne_nil cs)
    | cons h t =>
      by_cases hc : c = '\n'
      · subst hc
        rw [splitNl_cons_nl, hs] at hp
        rcases List.mem_cons.mp hp with rfl | hp'
        · simp
        · exact ih p (hs ▸ hp')
      · rw [splitNl_cons_not hc hs] at hp
        rcases List.mem_cons.mp hp with rfl | hp'
        · intro hmem
          rcases List.mem_cons.mp hmem with h' | h'
          · exact hc h'.symm
          · exact ih h (hs ▸ List.mem_cons_self h t) h'
        · exact ih p (hs ▸ List.mem_cons_of_mem h hp')

theorem stripCR_no_nl {l : List Char} (h : '\n' ∉ l) : '\n' ∉ stripCRChars l := by
  rw [stripCRChars]
  split_ifs
  · exact fun hm => h ((List.dropLast_sublist l).subset hm)
  · exact h

theorem stripCR_eq_self_of_no_cr {l : List Char} (h : '\r' ∉ l) : stripCRChars l = l := by
  rw [stripCRChars]
  split_ifs with hlast
  · exact absurd (List.mem_of_mem_getLast? hlast) h
  · rfl

theorem stripCR_all_ws {l : List Char} (h : l.all Char.isWhitespace = true) :
    (stripCRChars l).all Char.isWhitespace = true := by
  rw [stripCRChars]
  split_ifs
  · rw [List.all_eq_true] at h ⊢
    exact fun x hx => h x ((List.dropLast_sublist l).subset hx)
  · exact h

theorem rustLines_mem_no_nl {content : String} {s : String} (hs : s ∈ rustLines content) :
    '\n' ∉ s.data := by
  rw [rustLines] at hs
  simp only [List.mem_map] at hs
  obtain ⟨p, hp, rfl⟩ := hs
  have hp' : p ∈ splitNl content.data := by
    by_cases hlast : (splitNl content.data).getLast? = some []
    · simp only [hlast, if_pos] at hp
      exact (List.dropLast_sublist _).subset (by simpa using hp)
    · simpa [hlast] using hp
  rw [strData_mk]
  exact stripCR_no_nl (mem_splitNl_no_nl _ p hp')

/-! ### Second-run analysis: appending unparsed input to a parse -/

theorem skipWs_idem (cs : List Char) : skipWs (skipWs cs) = skipWs cs := by
  induction cs with
  | nil => rfl
  | cons c cs ih =>
    by_cases h : isWsChar c = true
    · rw [skipWs, if_pos h]
      exact ih
    · rw [skipWs, if_neg h, skipWs, if_neg h]

theorem parseV_skipWs (f : Nat) (cs : List Char) :
    parseV (f + 1) (skipWs cs) = parseV (f + 1) cs := by
  rw [parseV, parseV, skipWs_idem]

theorem skipWs_append_cons {cs : List Char} {c : Char} {r : List Char}
    (h : skipWs cs = c :: r) (t : List Char) :
    skipWs (cs ++ t) = c :: (r ++ t) := by
  induction cs with
  | nil => exact List.noConfusion h
  | cons d cs ih =>
    by_cases hw : isWsChar d = true
    · rw [skipWs, if_pos hw] at h
      rw [List.cons_append, skipWs, if_pos hw]
      exact ih h
    · rw [skipWs, if_neg hw] at h
      injection h with h1 h2
      subst h1; subst h2
      rw [List.cons_append, skipWs, if_neg hw]

theorem skipWs_append_nil {cs : List Char} (h : skipWs cs = []) (t : List Char) :
    skipWs (cs ++ t) = skipWs t := by
  induction cs with
  | nil => rfl
  | cons d cs ih =>
    by_cases hw : isWsChar d = true
    · rw [skipWs, if_pos hw] at h
      rw [List.cons_append, skipWs, if_pos hw]
      exact ih h
    · rw [skipWs, if_neg hw] at h
      exact List.noConfusion h

theorem skipWs_head_not_ws : ∀ {cs : List Char} {c : Char} {r : List Char},
    skipWs cs = c :: r → isWsChar c = false
  | [], _, _, h => List.noConfusion h
  | d :: cs, c, r, h => by
    rw [skipWs] at h
    split_ifs at h with hw
    · exact skipWs_head_not_ws h
    · injection h with h1 h2
      subst h1
      cases hval : isWsChar d with
      | false => rfl
      | true => exact absurd hval hw

theorem parseDigitsAux_append {t : List Char} (ht : noDigitHead t) :
    ∀ (cs : List Char) (acc n : Nat) (r : List Char),
      parseDigitsAux acc cs = (n, r) → parseDigitsAux acc (cs ++ t) = (n, r ++ t)
  | [], acc, n, r, h => by
    rw [parseDigitsAux] at h
    injection h with h1 h2
    subst h1; subst h2
    rw [List.nil_append]
    exact parseDigitsAux_stop acc ht
  | c :: cs, acc, n, r, h => by
    rw [parseDigitsAux] at h
    split at h
    · rename_i d hd
      rw [List.cons_append, parseDigitsAux, hd]
      exact parseDigitsAux_append ht cs (acc * 10 + d) n r h
    · rename_i hd
      injection h with h1 h2
      subst h1; subst h2
      rw [List.cons_append, parseDigitsAux, hd]

theorem parseNatTok_append {t : List Char} (ht : noDigitHead t) :
    ∀ {cs : List Char} {n : Nat} {r : List Char}, parseNatTok cs = some (n, r) →
      parseNatTok (cs ++ t) = some (n, r ++ t)
  | [], _, _, h => by cases h
  | c :: cs, n, r, h => by
    rw [parseNatTok] at h
    split_ifs at h with hd
    injection h with h1
    rw [List.cons_append, parseNatTok, if_pos hd]
    have hq := parseDigitsAux_append ht (c :: cs) 0 n r h1
    rw [List.cons_append] at hq
    rw [hq]

theorem parseNum_append {t : List Char} (ht : noDigitHead t) :
    ∀ {cs : List Char} {i : Int} {r : List Char}, parseNum cs = some (i, r) →
      parseNum (cs ++ t) = some (i, r ++ t)
  | [], _, _, h => by cases h
  | c :: cs, i, r, h => by
    rw [parseNum] at h
    split_ifs at h with hm
    · rw [Option.map_eq_some'] at h
      obtain ⟨⟨n0, r0⟩, hp, heq⟩ := h
      simp only [Prod.mk.injEq] at heq
      obtain ⟨hi, hr⟩ := heq
      subst hi; subst hr
      have hq := parseNatTok_append ht hp
      rw [List.cons_append, parseNum, if_pos hm, hq]
      rfl
    · rw [Option.map_eq_some'] at h
      obtain ⟨⟨n0, r0⟩, hp, heq⟩ := h
      simp only [Prod.mk.injEq] at heq
      obtain ⟨hi, hr⟩ := heq
      subst hi; subst hr
      have hq := parseNatTok_append ht hp
      rw [List.cons_append] at hq
      rw [List.cons_append, parseNum, if_neg hm, hq]
      rfl

theorem pe_u (f : Nat) {a b c2 d : Char} {na nb nc nd : Nat} (L : List Char)
    (ha : hexVal a = some na) (hb : hexVal b = some nb) (hc : hexVal c2 = some nc)
    (hd : hexVal d = some nd)
    (hn : ((na * 16 + nb) * 16 + nc) * 16 + nd < 55296 ∨
      (57344 ≤ ((na * 16 + nb) * 16 + nc) * 16 + nd ∧
        ((na * 16 + nb) * 16 + nc) * 16 + nd < 1114112)) :
    parseEsc (f + 1) ('u' :: a :: b :: c2 :: d :: L) =
      (parseStrBody f L).map
        (fun p => (Char.ofNat (((na * 16 + nb) * 16 + nc) * 16 + nd) :: p.1, p.2)) := by
  simp only [parseEsc, ha, hb, hc, hd]
  simp only [if_pos hn]
  simp

theorem parseEsc_eq (f : Nat) (e : Char) (cs : List Char) :
    parseEsc (f + 1) (e :: cs) =
      (if e = '"' then (parseStrBody f cs).map (fun p => ('"' :: p.1, p.2))
      else if e = '\\' then (parseStrBody f cs).map (fun p => ('\\' :: p.1, p.2))
      else if e = '/' then (parseStrBody f cs).map (fun p => ('/' :: p.1, p.2))
      else if e = 'b' then (parseStrBody f cs).map (fun p => (Char.ofNat 8 :: p.1, p.2))
      else if e = 'f' then (parseStrBody f cs).map (fun p => (Char.ofNat 12 :: p.1, p.2))
      else if e = 'n' then (parseStrBody f cs).map (fun p => ('\n' :: p.1, p.2))
      else if e = 'r' then (parseStrBody f cs).map (fun p => ('\r' :: p.1, p.2))
      else if e = 't' then (parseStrBody f cs).map (fun p => ('\t' :: p.1, p.2))
      else if e = 'u' then
        match cs with
        | a :: b :: c2 :: d :: cs'' =>
          match hexVal a, hexVal b, hexVal c2, hexVal d with
          | some ha, some hb, some hc, some hd =>
            let n := ((ha * 16 + hb) * 16 + hc) * 16 + hd
            if n < 55296 ∨ (57344 ≤ n ∧ n < 1114112) then
              (parseStrBody f cs'').map (fun p => (Char.ofNat n :: p.1, p.2))
            else none
          | _, _, _, _ => none
        | _ => none
      else none) := rfl

set_option maxHeartbeats 2000000 in
mutual

theorem parseStrBody_append : ∀ (f f' : Nat) (cs s r t : List Char), f ≤ f' →
    parseStrBody f cs = some (s, r) → parseStrBody f' (cs ++ t) = some (s, r ++ t)
  | 0, _, _, _, _, _, _, h => by cases h
  | _ + 1, 0, _, _, _, _, hf, _ => (Nat.not_succ_le_zero _ hf).elim
  | _ + 1, _ + 1, [], _, _, _, _, h => by cases h
  | f + 1, f' + 1, c :: cs, s, r, t, hf, h => by
    have hf' := Nat.le_of_succ_le_succ hf
    rw [parseStrBody] at h
    split_ifs at h with hq hb hc32
    · injection h with h1
      injection h1 with h2 h3
      subst h2; subst h3; subst hq
      rw [List.cons_append, parseStrBody, if_pos rfl]
    · subst hb
      rw [List.cons_append, parseStrBody, if_neg (by decide), if_pos rfl]
      exact parseEsc_append f f' cs s r t hf' h
    · rw [Option.map_eq_some'] at h
      obtain ⟨⟨s0, r0⟩, hp, heq⟩ := h
      simp only [Prod.mk.injEq] at heq
      obtain ⟨hs, hr⟩ := heq
      subst hs; subst hr
      rw [List.cons_append, parseStrBody, if_neg hq, if_neg hb, if_neg hc32,
        parseStrBody_append f f' cs s0 r0 t hf' hp]
      rfl

theorem parseEsc_append : ∀ (f f' : Nat) (cs s r t : List Char), f ≤ f' →
    parseEsc f cs = some (s, r) → parseEsc f' (cs ++ t) = some (s, r ++ t)
  | 0, _, _, _, _, _, _, h => by cases h
  | _ + 1, 0, _, _, _, _, hf, _ => (Nat.not_succ_le_zero _ hf).elim
  | _ + 1, _ + 1, [], _, _, _, _, h => by cases h
  | f + 1, f' + 1, e :: cs, s, r, t, hf, h => by
    have hf' := Nat.le_of_succ_le_succ hf
    rw [parseEsc_eq] at h
    split_ifs at h with h1 h2 h3 h4 h5 h6 h7 h8 h9
    · subst h1
      rw [Option.map_eq_some'] at h
      obtain ⟨⟨s0, r0⟩, hp, heq⟩ := h
      simp only [Prod.mk.injEq] at heq
      obtain ⟨hs, hr⟩ := heq
      subst hs; subst hr
      rw [List.cons_append, pe_quote, parseStrBody_append f f' cs s0 r0 t hf' hp]
      rfl
    · subst h2
      rw [Option.map_eq_some'] at h
      obtain ⟨⟨s0, r0⟩, hp, heq⟩ := h
      simp only [Prod.mk.injEq] at heq
      obtain ⟨hs, hr⟩ := heq
      subst hs; subst hr
      rw [List.cons_append, pe_bs, parseStrBody_append f f' cs s0 r0 t hf' hp]
      rfl
    · subst h3
      rw [Option.map_eq_some'] at h
      obtain ⟨⟨s0, r0⟩, hp, heq⟩ := h
      simp only [Prod.mk.injEq] at heq
      obtain ⟨hs, hr⟩ := heq
      subst hs; subst hr
      rw [List.cons_append, pe_slash, parseStrBody_append f f' cs s0 r0 t hf' hp]
      rfl
    · subst h4
      rw [Option.map_eq_some'] at h
      obtain ⟨⟨s0, r0⟩, hp, heq⟩ := h
      simp only [Prod.mk.injEq] at heq
      obtain ⟨hs, hr⟩ := heq
      subst hs; subst hr
      rw [List.cons_append, pe_b, parseStrBody_append f f' cs s0 r0 t hf' hp]
      rfl
    · subst h5
      rw [Option.map_eq_some'] at h
      obtain ⟨⟨s0, r0⟩, hp, heq⟩ := h
      simp only [Prod.mk.injEq] at heq
      obtain ⟨hs, hr⟩ := heq
      subst hs; subst hr
      rw [List.cons_append, pe_f, parseStrBody_append f f' cs s0 r0 t hf' hp]
      rfl
    · subst h6
      rw [Option.map_eq_some'] at h
      obtain ⟨⟨s0, r0⟩, hp, heq⟩ := h
      simp only [Prod.mk.injEq] at heq
      obtain ⟨hs, hr⟩ := heq
      subst hs; subst hr
      rw [List.cons_append, pe_n, parseStrBody_append f f' cs s0 r0 t hf' hp]
      rfl
    · subst h7
      rw [Option.map_eq_some'] at h
      obtain ⟨⟨s0, r0⟩, hp, heq⟩ := h
      simp only [Prod.mk.injEq] at heq
      obtain ⟨hs, hr⟩ := heq
      subst hs; subst hr
      rw [List.cons_append, pe_r, parseStrBody_append f f' cs s0 r0 t hf' hp]
      rfl
    · subst h8
      rw [Option.map_eq_some'] at h
      obtain ⟨⟨s0, r0⟩, hp, heq⟩ := h
      simp only [Prod.mk.injEq] at heq
      obtain ⟨hs, hr⟩ := heq
      subst hs; subst hr
      rw [List.cons_append, pe_t, parseStrBody_append f f' cs s0 r0 t hf' hp]
      rfl
    · subst h9
      split at h
      · rename_i a b c2 d cs2
        split at h
        · rename_i na nb nc nd heqa heqb heqc heqd
          simp only [] at h
          split_ifs at h with hn
          rw [Option.map_eq_some'] at h
          obtain ⟨⟨s0, r0⟩, hp, heq⟩ := h
          simp only [Prod.mk.injEq] at heq
          obtain ⟨hs, hr⟩ := heq
          subst hs; subst hr
          simp only [List.cons_append]
          rw [pe_u f' (cs2 ++ t) heqa heqb heqc heqd hn,
            parseStrBody_append f f' cs2 s0 r0 t hf' hp]
          rfl
        all_goals cases h
      all_goals cases h

end

set_option maxHeartbeats 2000000 in
mutual

theorem parseV_append : ∀ (fuel fuel' : Nat) (cs : List Char) (v : JVal)
    (r t : List Char), fuel ≤ fuel' → noDigitHead t → parseV fuel cs = some (v, r) →
    parseV fuel' (cs ++ t) = some (v, r ++ t)
  | 0, _, _, _, _, _, _, _, h => by cases h
  | _ + 1, 0, _, _, _, _, hf, _, _ => (Nat.not_succ_le_zero _ hf).elim
  | fuel + 1, fuel' + 1, cs, v, r, t, hf, ht, h => by
    have hf' := Nat.le_of_succ_le_succ hf
    rw [parseV] at h
    split at h
    · cases h
    · rename_i c cs' heq
      rw [← parseV_skipWs fuel' (cs ++ t), skipWs_append_cons heq t]
      split_ifs at h with h1 h2 h3 h4 h5 h6
      · subst h1
        split at h
        · rename_i r0
          simp only [Option.some.injEq, Prod.mk.injEq] at h
          obtain ⟨hv, hr⟩ := h
          subst hv; subst hr
          simp only [List.cons_append]
          exact pv_null fuel' _
        all_goals cases h
      · subst h2
        split at h
        · rename_i r0
          simp only [Option.some.injEq, Prod.mk.injEq] at h
          obtain ⟨hv, hr⟩ := h
          subst hv; subst hr
          simp only [List.cons_append]
          exact pv_true fuel' _
        all_goals cases h
      · subst h3
        split at h
        · rename_i r0
          simp only [Option.some.injEq, Prod.mk.injEq] at h
          obtain ⟨hv, hr⟩ := h
          subst hv; subst hr
          simp only [List.cons_append]
          exact pv_false fuel' _
        all_goals cases h
      · subst h4
        rw [Option.map_eq_some'] at h
        obtain ⟨⟨s0, r0⟩, hp, heq2⟩ := h
        simp only [Prod.mk.injEq] at heq2
        obtain ⟨hv, hr⟩ := heq2
        subst hv; subst hr
        rw [pv_str fuel' (cs' ++ t),
          parseStrBody_append (cs'.length + 1) ((cs' ++ t).length + 1) cs' s0 r0 t
            (by rw [List.length_append]; omega) hp]
        rfl
      · subst h5
        split at h
        · cases h
        · rename_i c2 r0 heq2
          split_ifs at h with hb2
          · simp only [Option.some.injEq, Prod.mk.injEq] at h
            obtain ⟨hv, hr⟩ := h
            subst hv; subst hr; subst hb2
            rw [pv_arr fuel' (skipWs_append_cons heq2 t), if_pos rfl]
          · rw [Option.map_eq_some'] at h
            obtain ⟨⟨es, r2⟩, hpe, heq3⟩ := h
            simp only [Prod.mk.injEq] at heq3
            obtain ⟨hv, hr⟩ := heq3
            subst hv; subst hr
            have hrec := parseElems_append fuel fuel' (c2 :: r0) es r2 t hf' ht hpe
            rw [List.cons_append] at hrec
            rw [pv_arr fuel' (skipWs_append_cons heq2 t), if_neg hb2, hrec]
            rfl
      · subst h6
        split at h
        · cases h
        · rename_i c2 r0 heq2
          split_ifs at h with hb2
          · simp only [Option.some.injEq, Prod.mk.injEq] at h
            obtain ⟨hv, hr⟩ := h
            subst hv; subst hr; subst hb2
            rw [pv_obj fuel' (skipWs_append_cons heq2 t), if_pos rfl]
          · rw [Option.map_eq_some'] at h
            obtain ⟨⟨ms, r2⟩, hpm, heq3⟩ := h
            simp only [Prod.mk.injEq] at heq3
            obtain ⟨hv, hr⟩ := heq3
            subst hv; subst hr
            have hrec := parseMembers_append fuel fuel' (c2 :: r0) ms r2 t hf' ht hpm
            rw [List.cons_append] at hrec
            rw [pv_obj fuel' (skipWs_append_cons heq2 t), if_neg hb2, hrec]
            rfl
      · rw [Option.map_eq_some'] at h
        obtain ⟨⟨i, r0⟩, hpn, heq2⟩ := h
        simp only [Prod.mk.injEq] at heq2
        obtain ⟨hv, hr⟩ := heq2
        subst hv; subst hr
        have hnum := parseNum_append ht hpn
        rw [List.cons_append] at hnum
        rw [pv_other fuel' (cs' ++ t) h1 h2 h3 h4 h5 h6 (skipWs_head_not_ws heq), hnum]
        rfl

theorem parseElems_append : ∀ (fuel fuel' : Nat) (cs : List Char) (es : List JVal)
    (r t : List Char), fuel ≤ fuel' → noDigitHead t → parseElems fuel cs = some (es, r) →
    parseElems fuel' (cs ++ t) = some (es, r ++ t)
  | 0, _, _, _, _, _, _, _, h => by cases h
  | _ + 1, 0, _, _, _, _, hf, _, _ => (Nat.not_succ_le_zero _ hf).elim
  | fuel + 1, fuel' + 1, cs, es, r, t, hf, ht, h => by
    have hf' := Nat.le_of_succ_le_succ hf
    rw [parseElems] at h
    split at h
    · cases h
    · rename_i v r0 heqv
      split at h
      · cases h
      · rename_i c r1 heq1
        have hv' := parseV_append fuel fuel' cs v r0 t hf' ht heqv
        have hsw := skipWs_append_cons heq1 t
        split_ifs at h with hc hc2
        · split at h
          · cases h
          · rename_i es0 r2 heq2
            simp only [Option.some.injEq, Prod.mk.injEq] at h
            obtain ⟨hes, hr⟩ := h
            subst hes; subst hr; subst hc
            exact pel_comma fuel' hv' hsw
              (parseElems_append fuel fuel' r1 es0 r2 t hf' ht heq2)
        · simp only [Option.some.injEq, Prod.mk.injEq] at h
          obtain ⟨hes, hr⟩ := h
          subst hes; subst hr; subst hc2
          exact pel_last fuel' hv' hsw

theorem parseMembers_append : ∀ (fuel fuel' : Nat) (cs : List Char)
    (ms : List (String × JVal)) (r t : List Char), fuel ≤ fuel' → noDigitHead t →
    parseMembers fuel cs = some (ms, r) → parseMembers fuel' (cs ++ t) = some (ms, r ++ t)
  | 0, _, _, _, _, _, _, _, h => by cases h
  | _ + 1, 0, _, _, _, _, hf, _, _ => (Nat.not_succ_le_zero _ hf).elim
  | fuel + 1, fuel' + 1, cs, ms, r, t, hf, ht, h => by
    have hf' := Nat.le_of_succ_le_succ hf
    rw [parseMembers] at h
    split at h
    · rename_i cs1 heq0
      split at h
      · cases h
      · rename_i k r0 heqk
        split at h
        · rename_i r1 heq1
          split at h
          · cases h
          · rename_i v r2 heqv
            split at h
            · cases h
            · rename_i c r3 heq3
              have hsw0 := skipWs_append_cons heq0 t
              have hk' := parseStrBody_append (cs1.length + 1) ((cs1 ++ t).length + 1)
                cs1 k r0 t (by rw [List.length_append]; omega) heqk
              have hsw1 := skipWs_append_cons heq1 t
              have hv' := parseV_append fuel fuel' r1 v r2 t hf' ht heqv
              have hsw3 := skipWs_append_cons heq3 t
              split_ifs at h with hc hc2
              · split at h
                · cases h
                · rename_i ms0 r4 heq4
                  simp only [Option.some.injEq, Prod.mk.injEq] at h
                  obtain ⟨hms, hr⟩ := h
                  subst hms; subst hr; subst hc
                  exact pm_comma fuel' hsw0 hk' hsw1 hv' hsw3
                    (parseMembers_append fuel fuel' r3 ms0 r4 t hf' ht heq4)
              · simp only [Option.some.injEq, Prod.mk.injEq] at h
                obtain ⟨hms, hr⟩ := h
                subst hms; subst hr; subst hc2
                exact pm_last fuel' hsw0 hk' hsw1 hv' hsw3
        all_goals cases h
    all_goals cases h

end

/-! ### Claim C10: idempotence of the transform and of the whole run -/

theorem parseJson_snoc_cr {body : List Char} {v : JVal}
    (h : parseJson (String.mk body) = some v) :
    parseJson (String.mk (body ++ ['\r'])) = some v := by
  rw [parseJson, strData_mk] at h
  rw [parseJson, strData_mk]
  split at h
  · rename_i v0 r heqv
    split_ifs at h with hsw
    injection h with h1
    subst h1
    have hap := parseV_append (body.length + 1) ((body ++ ['\r']).length + 1) body v0 r
      ['\r'] (by rw [List.length_append]; omega) (ndh_cons (by decide) []) heqv
    rw [hap]
    show (if skipWs (r ++ ['\r']) = [] then some v0 else none) = some v0
    rw [skipWs_append_nil hsw]
    rfl
  · cases h

theorem stripCR_cases (d : List Char) :
    stripCRChars d = d ∨ d = stripCRChars d ++ ['\r'] := by
  rw [stripCRChars]
  split_ifs with hlast
  · right
    have hne : d ≠ [] := by
      intro hnil
      rw [hnil] at hlast
      cases hlast
    have hg : d.getLast hne = '\r' := by
      rw [List.getLast?_eq_getLast d hne] at hlast
      exact Option.some.inj hlast
    conv_lhs => rw [← List.dropLast_append_getLast hne]
    rw [hg]
  · left
    rfl

theorem parseJson_stripCR_none {l : String} (h : parseJson l = none) :
    parseJson (String.mk (stripCRChars l.data)) = none := by
  cases hp : parseJson (String.mk (stripCRChars l.data)) with
  | none => rfl
  | some v =>
    exfalso
    rcases stripCR_cases l.data with hc | hc
    · rw [hc, strMk_data] at hp
      rw [hp] at h
      cases h
    · have h2 := parseJson_snoc_cr hp
      rw [← hc, strMk_data] at h2
      rw [h2] at h
      cases h

theorem serialize_not_blank (v : JVal) : isBlank (serialize v) = false := by
  obtain ⟨c, cs0, hser, hws, -⟩ := serChars_head v
  rw [isBlank, serialize, strData_mk, hser, List.all_cons,
    ← isWsChar_eq_isWhitespace c, hws]
  rfl

theorem serialize_no_cr (v : JVal) : '\r' ∉ (serialize v).data := by
  rw [serialize, strData_mk]
  intro hm
  exact (serChars_mem_ok v _ hm).2 rfl

theorem serialize_no_nl (v : JVal) : '\n' ∉ (serialize v).data := by
  rw [serialize, strData_mk]
  intro hm
  exact (serChars_mem_ok v _ hm).1 rfl

theorem lineTransform_idem_triple (l : String) :
    lineTransform (lineTransform l) = lineTransform l ∧
    lineRemoved (lineTransform l) = 0 ∧ lineModified (lineTransform l) = 0 := by
  by_cases hb : isBlank l
  · have hlt : lineTransform l = l := by rw [lineTransform, if_pos hb]
    rw [hlt]
    exact ⟨by rw [lineTransform, if_pos hb], by rw [lineRemoved, if_pos hb],
      by rw [lineModified, if_pos hb]⟩
  · cases hp : parseJson l with
    | none =>
      have hlt : lineTransform l = l := by rw [lineTransform, if_neg hb, hp]
      rw [hlt]
      exact ⟨hlt, by rw [lineRemoved, if_neg hb, hp], by rw [lineModified, if_neg hb, hp]⟩
    | some v =>
      have hwf : jwf (fixValue v).1 = true := fixValue_wf (parseJson_wf hp)
      have hlt : lineTransform l = serialize (fixValue v).1 := by
        rw [lineTransform, if_neg hb, hp]
      have hnb : ¬isBlank (serialize (fixValue v).1) = true := by
        rw [serialize_not_blank]
        exact Bool.false_ne_true
      have hps := parseJson_serialize hwf
      have hfix := fixValue_idem v
      rw [hlt]
      refine ⟨?_, ?_, ?_⟩
      · rw [lineTransform, if_neg hnb, hps]
        show serialize (fixValue ((fixValue v).1)).1 = serialize (fixValue v).1
        rw [hfix]
      · rw [lineRemoved, if_neg hnb, hps]
        show (fixValue ((fixValue v).1)).2 = 0
        rw [hfix]
      · rw [lineModified, if_neg hnb, hps]
        show (if serialize (fixValue ((fixValue v).1)).1 ≠ serialize ((fixValue v).1)
          then 1 else 0) = 0
        rw [hfix]
        simp

theorem lineTransform_no_nl {l : String} (hl : '\n' ∉ l.data) :
    '\n' ∉ (lineTransform l).data := by
  rw [lineTransform]
  split_ifs with hb
  · exact hl
  · cases hp : parseJson l with
    | none => exact hl
    | some v => exact serialize_no_nl (fixValue v).1

theorem lineTransform_strip_zero (l : String) :
    lineRemoved (String.mk (stripCRChars (lineTransform l).data)) = 0 ∧
    lineModified (String.mk (stripCRChars (lineTransform l).data)) = 0 := by
  by_cases hb : isBlank l
  · have hlt : lineTransform l = l := by rw [lineTransform, if_pos hb]
    rw [hlt]
    have hbl : isBlank (String.mk (stripCRChars l.data)) = true := by
      rw [isBlank, strData_mk]
      exact stripCR_all_ws hb
    exact ⟨by rw [lineRemoved, if_pos hbl], by rw [lineModified, if_pos hbl]⟩
  · cases hp : parseJson l with
    | none =>
      have hlt : lineTransform l = l := by rw [lineTransform, if_neg hb, hp]
      rw [hlt]
      have hpn := parseJson_stripCR_none hp
      constructor
      · rw [lineRemoved]
        split_ifs
        · rfl
        · rw [hpn]
      · rw [lineModified]
        split_ifs
        · rfl
        · rw [hpn]
    | some v =>
      have hwf : jwf (fixValue v).1 = true := fixValue_wf (parseJson_wf hp)
      have hlt : lineTransform l = serialize (fixValue v).1 := by
        rw [lineTransform, if_neg hb, hp]
      rw [hlt, stripCR_eq_self_of_no_cr (serialize_no_cr _), strMk_data]
      have hnb : ¬isBlank (serialize (fixValue v).1) = true := by
        rw [serialize_not_blank]
        exact Bool.false_ne_true
      have hps := parseJson_serialize hwf
      have hfix := fixValue_idem v
      constructor
      · rw [lineRemoved, if_neg hnb, hps]
        show (fixValue ((fixValue v).1)).2 = 0
        rw [hfix]
      · rw [lineModified, if_neg hnb, hps]
        show (if serialize (fixValue ((fixValue v).1)).1 ≠ serialize ((fixValue v).1)
          then 1 else 0) = 0
        rw [hfix]
        simp

theorem rustLines_joinNl_mem {outs : List String} (hne : outs ≠ [])
    (hnn : ∀ o ∈ outs, '\n' ∉ o.data) {x : String} (hx : x ∈ rustLines (joinNl outs)) :
    ∃ o ∈ outs, x = String.mk (stripCRChars o.data) := by
  have hsplit : splitNl (joinNl outs).data = outs.map String.data := by
    rw [joinNl, strData_mk]
    refine joinLines_splitNl _ ?_ ?_
    · cases outs with
      | nil => exact absurd rfl hne
      | cons a as => simp
    · intro d hd
      obtain ⟨o, ho, rfl⟩ := List.mem_map.mp hd
      exact hnn o ho
  rw [rustLines] at hx
  simp only [List.mem_map] at hx
  obtain ⟨p, hp, rfl⟩ := hx
  have hp' : p ∈ splitNl (joinNl outs).data := by
    by_cases hlast : (splitNl (joinNl outs).data).getLast? = some []
    · simp only [hlast, if_pos] at hp
      exact (List.dropLast_sublist _).subset (by simpa using hp)
    · simpa [hlast] using hp
  rw [hsplit] at hp'
  obtain ⟨o, ho, rfl⟩ := List.mem_map.mp hp'
  exact ⟨o, ho, rfl⟩

theorem second_run_zero (content : String) :
    (processLines (rustLines (fixOutput content))).thinking_blocks_removed = 0 ∧
    (processLines (rustLines (fixOutput content))).modified_lines = 0 := by
  have hout : (processLines (rustLines content)).out
      = (rustLines content).map lineTransform := by rw [processLines_eq]
  have hmem : ∀ x ∈ rustLines (fixOutput content),
      lineRemoved x = 0 ∧ lineModified x = 0 := by
    intro x hx
    rw [fixOutput, hout] at hx
    cases hls : rustLines content with
    | nil =>
      rw [hls] at hx
      simp [joinNl, joinLinesChars, rustLines, splitNl] at hx
    | cons l0 ls0 =>
      rw [hls] at hx
      have hnn : ∀ o ∈ (l0 :: ls0).map lineTransform, '\n' ∉ o.data := by
        intro o ho
        obtain ⟨l, hl, rfl⟩ := List.mem_map.mp ho
        refine lineTransform_no_nl (@rustLines_mem_no_nl content l ?_)
        rw [hls]
        exact hl
      obtain ⟨o, ho, rfl⟩ := rustLines_joinNl_mem (by simp) hnn hx
      obtain ⟨l, hl, rfl⟩ := List.mem_map.mp ho
      exact lineTransform_strip_zero l
  rw [processLines_eq]
  constructor
  · refine List.sum_eq_zero ?_
    intro n hn
    obtain ⟨x, hx, rfl⟩ := List.mem_map.mp hn
    exact (hmem x hx).1
  · refine List.sum_eq_zero ?_
    intro n hn
    obtain ⟨x, hx, rfl⟩ := List.mem_map.mp hn
    exact (hmem x hx).2

/-- C10: the per-line transform is idempotent — applied to its own output it
yields the identical string, removes zero further elements and does not count
a modified line — and a second run of the fixer over the content the first
run wrote back reports `thinking_blocks_removed = 0` and
`modified_lines = 0`. -/
theorem C10_transform_idempotent :
    (∀ l : String, lineTransform (lineTransform l) = lineTransform l ∧
      lineRemoved (lineTransform l) = 0 ∧ lineModified (lineTransform l) = 0) ∧
    (∀ content : String,
      (processLines (rustLines (fixOutput content))).thinking_blocks_removed = 0 ∧
      (processLines (rustLines (fixOutput content))).modified_lines = 0) :=
  ⟨lineTransform_idem_triple, second_run_zero⟩

end ThinkingFix
